import Mathlib

/-!
# Verification of the GTN Manager core (FDS_Project_MagdalenaZheleva.cpp)

Shallow embedding of the data model and the three algorithmic engines of the
GTN Manager (merge sort over tasks, heap sort over goals, KMP text search over
notes), together with proofs of the spec's testable properties.

Modelling conventions:
* `std::string` is modelled by `String` (or `List Char` where the code indexes
  into the characters); `std::vector` by `List`.
* `double progress` is modelled by `Int`: the claims only compare progress
  values and test them against the sentinel `-1`, and the sentinel and the
  orderings are exact on the values the program stores, so no floating-point
  rounding is involved in any claim.
* The virtual `getProgress` dispatch of the `Goal` hierarchy is modelled by a
  variant tag (`GoalKind`) and a `match` on it, one arm per C++ override.
* `while` loops become recursive functions; loops whose C++ termination
  argument rests on a data invariant (the KMP loops, which rely on
  `lps[k] <= k`) are given an explicit fuel that the correctness proofs show
  is never exhausted.
-/

set_option maxHeartbeats 1600000

namespace GTN

/-! ## Data model (classes Item, Task, Note, Goal and their children) -/

/-- Variant tag for the `Task` hierarchy (`Task`, `RecurringTask`, `OneTimeTask`). -/
inductive TaskKind where
  | generic
  | recurring
  | oneTime
deriving DecidableEq

/-- The `Task` class: `title`, `description` from `Item`, plus `deadline` and
`priority`; `interval` is only meaningful for `kind = recurring`
(`RecurringTask::recurrenceInterval`). -/
structure Task where
  title : String
  description : String
  deadline : String
  priority : Int
  interval : String
  kind : TaskKind
deriving DecidableEq

/-- Variant tag for the `Note` hierarchy (`Note`, `ProtectedNote`, `PublicNote`). -/
inductive NoteKind where
  | generic
  | protectedNote
  | publicNote
deriving DecidableEq

/-- The `Note` class: `title`, `description` from `Item`, plus `tags`;
`password` is only meaningful for `kind = protectedNote`. -/
structure Note where
  title : String
  description : String
  tags : List String
  password : String
  kind : NoteKind
deriving DecidableEq

/-- Variant tag for the `Goal` hierarchy (`Goal`, `QuantifiableGoal`,
`NonQuantifiableGoal`). -/
inductive GoalKind where
  | generic
  | quantifiable
  | nonQuantifiable
deriving DecidableEq

/-- The `Goal` class: `title`, `description` from `Item`, plus the stored
`progress` field. -/
structure Goal where
  title : String
  description : String
  progress : Int
  kind : GoalKind
deriving DecidableEq

/-- Virtual dispatch of `getProgress()`: `Goal::getProgress` and
`QuantifiableGoal::getProgress` return the stored `progress`;
`NonQuantifiableGoal::getProgress` returns the sentinel `-1.0`. -/
def Goal.getProgress (g : Goal) : Int :=
  match g.kind with
  | .generic => g.progress
  | .quantifiable => g.progress
  | .nonQuantifiable => -1

/-! ## Key-ordering engine: merge sort over tasks

`merge`/`mergeSort` and `mergeByDeadline`/`mergeSortByDeadline` are textually
identical up to the compared key (`priority` vs `deadline`), so the embedding
takes the comparison `le` as a parameter and instantiates it twice. -/

/-- The C++ `<=` comparison on `priority` used by `merge`. -/
def priorityLE (a b : Task) : Bool := a.priority ≤ b.priority

/-- The C++ `<=` comparison on `deadline` (lexicographic on the raw string)
used by `mergeByDeadline`. -/
def deadlineLE (a b : Task) : Bool := a.deadline ≤ b.deadline

/-- The three `while` loops of the C++ `merge`: `L` and `R` are the unconsumed
tails of the temp arrays (consuming a head models `i++` / `j++`), `tasks` is
the vector being written back into, and `k` is the write index. -/
def mergeLoop (le : Task → Task → Bool) : List Task → List Task → List Task → Nat → List Task
  | [], [], tasks, _ => tasks
  | a :: as, [], tasks, k => mergeLoop le as [] (tasks.set k a) (k+1)
  | [], b :: bs, tasks, k => mergeLoop le [] bs (tasks.set k b) (k+1)
  | a :: as, b :: bs, tasks, k =>
    if le a b then mergeLoop le as (b :: bs) (tasks.set k a) (k+1)
    else mergeLoop le (a :: as) bs (tasks.set k b) (k+1)
termination_by L R _ _ => L.length + R.length

/-- The inclusive segment `tasks[a..b]` of the vector, as a list. -/
def seg (tasks : List Task) (a b : Nat) : List Task := (tasks.drop a).take (b - a + 1)

/-- C++ `merge(tasks, left, mid, right)`: copy `tasks[left..mid]` and
`tasks[mid+1..right]` into temp arrays `L` and `R` (`n1 = mid - left + 1`,
`n2 = right - mid`), then merge them back into `tasks[left..right]`. -/
def mergeCpp (le : Task → Task → Bool) (tasks : List Task) (left mid right : Nat) : List Task :=
  mergeLoop le (seg tasks left mid) (seg tasks (mid+1) right) tasks left

/-- C++ `mergeSort(tasks, left, right)`: return when `left >= right`, else
split at `mid = left + (right - left) / 2`, sort both halves, and merge. -/
def mergeSortCpp (le : Task → Task → Bool) (tasks : List Task) (left right : Nat) : List Task :=
  if left ≥ right then tasks
  else
    let mid := left + (right - left) / 2
    mergeCpp le (mergeSortCpp le (mergeSortCpp le tasks left mid) (mid+1) right) left mid right
termination_by right - left
decreasing_by all_goals omega

/-- The menu call `mergeSort(tasks, 0, tasks.size() - 1)`.  For an empty
vector the C++ computes `right = -1 < 0 = left` (int arithmetic) and returns
the vector unchanged; with `Nat` truncation `0 - 1 = 0` the guard
`left >= right` likewise returns it unchanged. -/
def sortByPriority (tasks : List Task) : List Task :=
  mergeSortCpp priorityLE tasks 0 (tasks.length - 1)

/-- The menu call `mergeSortByDeadline(tasks, 0, tasks.size() - 1)`. -/
def sortByDeadline (tasks : List Task) : List Task :=
  mergeSortCpp deadlineLE tasks 0 (tasks.length - 1)

/-- The `getProgress()` of the goal at index `i` of the vector (`0` for an
out-of-range index; no reachable call reads out of range). -/
def progAt (goals : List Goal) (i : Nat) : Int :=
  (goals[i]?.map Goal.getProgress).getD 0

/-- `std::swap(goals[i], goals[j])` on the vector. -/
def swapL {α : Type} (l : List α) (i j : Nat) : List α :=
  match l[i]?, l[j]? with
  | some a, some b => (l.set i b).set j a
  | _, _ => l

/-- The `largest` index computed by the two `if`s of the C++ `heapify`: a
child index replaces the current `largest` when it is in range, has strictly
greater progress, and its progress is not the sentinel `-1`. -/
def largestIdx (goals : List Goal) (n i : Nat) : Nat :=
  let l1 := if 2*i+1 < n ∧ progAt goals i < progAt goals (2*i+1) ∧ progAt goals (2*i+1) ≠ -1
    then 2*i+1 else i
  if 2*i+2 < n ∧ progAt goals l1 < progAt goals (2*i+2) ∧ progAt goals (2*i+2) ≠ -1
    then 2*i+2 else l1

/-- C++ `heapify(goals, n, i)`: when a child wins, swap it with the node and
continue sifting down from the winning index. -/
def heapify (goals : List Goal) (n i : Nat) : List Goal :=
  if hne : largestIdx goals n i ≠ i
  then heapify (swapL goals i (largestIdx goals n i)) n (largestIdx goals n i)
  else goals
termination_by n - i
decreasing_by
  have h1 : largestIdx goals n i = i
      ∨ ((largestIdx goals n i = 2*i+1 ∨ largestIdx goals n i = 2*i+2)
          ∧ largestIdx goals n i < n) := by
    unfold largestIdx
    dsimp only
    split_ifs <;> omega
  rcases h1 with h1 | h1
  · exact absurd h1 hne
  · omega

/-- The first loop of C++ `heapSort`: `for (i = n/2 - 1; i >= 0; i--)
heapify(goals, n, i)`, with `k` the number of indices still to process. -/
def buildLoop (n : Nat) : Nat → List Goal → List Goal
  | 0, goals => goals
  | k+1, goals => buildLoop n k (heapify goals n k)

/-- The second loop of C++ `heapSort`: `for (i = n - 1; i >= 0; i--)
{ swap(goals[0], goals[i]); heapify(goals, i, 0); }`. -/
def extractLoop : Nat → List Goal → List Goal
  | 0, goals => goals
  | k+1, goals => extractLoop k (heapify (swapL goals 0 k) k 0)

/-- C++ `heapSort(goals)`: build a heap, then extract repeatedly. -/
def heapSort (goals : List Goal) : List Goal :=
  extractLoop goals.length (buildLoop goals.length (goals.length / 2) goals)

/-- The parent at `p` dominates its in-range children (within the first `n`
entries). -/
def childDom (l : List Goal) (n p : Nat) : Prop :=
  (2*p+1 < n → progAt l (2*p+1) ≤ progAt l p)
    ∧ (2*p+2 < n → progAt l (2*p+2) ≤ progAt l p)

/-- `Desc i j` says index `j` lies in the binary-heap subtree rooted at `i`
(the children of `k` are `2k+1` and `2k+2`). -/
inductive Desc : Nat → Nat → Prop where
  | refl (i : Nat) : Desc i i
  | stepL {i j : Nat} : Desc i j → Desc i (2*j+1)
  | stepR {i j : Nat} : Desc i j → Desc i (2*j+2)

/-- A quantifiable goal with stored progress `50` (0.50 scaled), used as a
concrete test vector. -/
def cQuant : Goal := ⟨"Quantifiable goal", "", 50, .quantifiable⟩

/-- A non-quantifiable goal (its `getProgress()` is the sentinel `-1`), used
as a concrete test vector. -/
def cNonQuant : Goal := ⟨"Non-quantifiable goal", "", 0, .nonQuantifiable⟩

/-- `s[i]` as read by the C++ code (a default character when out of range; no
reachable read is out of range). -/
def charAt (s : List Char) (i : Nat) : Char := s.getD i ' '

/-- `lps[i]` as read by the C++ code. -/
def lpsAt (lps : List Nat) (i : Nat) : Nat := lps.getD i 0

/-- The `while (i < m)` loop of C++ `computeKMPTable`. -/
def kmpTableLoop (p : List Char) (m : Nat) : Nat → Nat → Nat → List Nat → List Nat
  | 0, _, _, lps => lps
  | fuel+1, len, i, lps =>
    if i < m then
      if charAt p i == charAt p len then
        kmpTableLoop p m fuel (len+1) (i+1) (lps.set i (len+1))
      else if len ≠ 0 then
        kmpTableLoop p m fuel (lpsAt lps (len-1)) i lps
      else
        kmpTableLoop p m fuel 0 (i+1) (lps.set i 0)
    else lps

/-- C++ `computeKMPTable(pattern)`: `lps` starts as `m` zeros and the loop
runs with `len = 0`, `i = 1`. -/
def computeKMPTable (pattern : List Char) : List Nat :=
  kmpTableLoop pattern pattern.length (2*pattern.length+1) 0 1
    (List.replicate pattern.length 0)

/-- The `while (i < n)` loop of C++ `KMPSearch`. -/
def kmpSearchLoop (text pattern : List Char) (n m : Nat) (lps : List Nat) :
    Nat → Nat → Nat → Bool
  | 0, _, _ => false
  | fuel+1, i, j =>
    if i < n then
      if charAt text i == charAt pattern j then
        if j+1 = m then true
        else kmpSearchLoop text pattern n m lps fuel (i+1) (j+1)
      else if j ≠ 0 then
        kmpSearchLoop text pattern n m lps fuel i (lpsAt lps (j-1))
      else
        kmpSearchLoop text pattern n m lps fuel (i+1) j
    else false

/-- C++ `KMPSearch(text, pattern)`: an empty pattern returns `false`;
otherwise precompute the table and scan. -/
def KMPSearch (text pattern : List Char) : Bool :=
  if pattern.isEmpty then false
  else kmpSearchLoop text pattern text.length pattern.length
    (computeKMPTable pattern) (2*text.length+1) 0 0

/-- Property of the entry `lps[j-1]` of a correct failure table: it is the
length of the longest proper border of `p.take j` (a strict prefix that is
also a suffix). -/
def TableEntryOK (p : List Char) (lps : List Nat) (j : Nat) : Prop :=
  lpsAt lps (j-1) < j
  ∧ List.IsSuffix (p.take (lpsAt lps (j-1))) (p.take j)
  ∧ ∀ k, k < j → List.IsSuffix (p.take k) (p.take j) → k ≤ lpsAt lps (j-1)

/-- An occurrence of the pattern `p` starting at position `s` of the text. -/
def occAt (t p : List Char) (s : Nat) : Prop := (t.drop s).take p.length = p

/-- C++ `toLowerCase`: `std::tolower` applied per character (ASCII / C
locale), which coincides with `Char.toLower`. -/
def toLowerCase (s : List Char) : List Char := s.map Char.toLower

/-- The haystack built by `searchNotesFullText`: `title + " " + description
+ " "` followed by `tag + " "` for every tag — each component carries a
TRAILING space, including the last. -/
def noteFullText (nt : Note) : List Char :=
  nt.title.data ++ " ".data ++ nt.description.data ++ " ".data
    ++ (nt.tags.map (fun tag => tag.data ++ " ".data)).flatten

/-- C++ `searchNotesFullText(notes, searchText)`: the displayed notes in
iteration order together with the `found` flag. -/
def searchNotesFullText (notes : List Note) (searchText : String) : List Note × Bool :=
  match notes with
  | [] => ([], false)
  | nt :: rest =>
    let r := searchNotesFullText rest searchText
    if KMPSearch (toLowerCase (noteFullText nt)) (toLowerCase searchText.data)
    then (nt :: r.1, true) else r

/-- Modelled from the spec: the haystack as the spec words it — "built by
concatenating title, description, and all tags (for notes) separated by
spaces" — i.e. with single separating spaces and NO trailing separator.
Used to compare the spec's haystack against the code's `noteFullText`. -/
def specHaystack (nt : Note) : List Char :=
  (String.intercalate " " ([nt.title, nt.description] ++ nt.tags)).data

/-- C++ `searchNotesByTag(notes, tag)`: `std::find` over each note's tag
vector (exact, case-sensitive string equality); the displayed notes in
iteration order together with the `found` flag. -/
def searchNotesByTag (notes : List Note) (tag : String) : List Note × Bool :=
  match notes with
  | [] => ([], false)
  | nt :: rest =>
    let r := searchNotesByTag rest tag
    if tag ∈ nt.tags then (nt :: r.1, true) else r

/-- One `getline(stream, token, delim)` loop, reading character by
character: `acc` is the token read so far; hitting the delimiter emits the
token, and a `getline` call at end-of-stream fails (so a trailing delimiter
does NOT produce a trailing empty token). -/
def splitGo (delim : Char) (acc : List Char) : List Char → List (List Char)
  | [] => [acc]
  | c :: cs =>
    if c = delim then acc :: (if cs.isEmpty then [] else splitGo delim [] cs)
    else splitGo delim (acc ++ [c]) cs

/-- C++ `split(s, delimiter)` (used by `loadDataFromFile` for note tags): the
`while (getline(tokenStream, token, delimiter))` loop.  On an empty string
the first `getline` fails immediately and no token is produced. -/
def split (s : List Char) (delim : Char) : List (List Char) :=
  if s.isEmpty then [] else splitGo delim [] s

/-- The tag list built by C++ `addNote`: the same `getline` loop over the
comma-separated input, with every empty token replaced by `"generic"`. -/
def addNoteTags (tagsInput : String) : List String :=
  (split tagsInput.data ',').map (fun tok => if tok.isEmpty then "generic" else String.mk tok)

/-- The tag list built by the ingestion adapter (`loadDataFromFile`):
`split(tags, ',')` with NO empty-tag substitution. -/
def loadNoteTags (tagsField : String) : List String :=
  (split tagsField.data ',').map String.mk

/-- The note constructed by C++ `addNote` for a given note type (`2` =
protected, `1` = public, `3` = generic; any other type creates nothing). -/
def addNote (noteType : Int) (title description tagsInput password : String) :
    Option Note :=
  if noteType = 2 then some ⟨title, description, addNoteTags tagsInput, password, .protectedNote⟩
  else if noteType = 1 then some ⟨title, description, addNoteTags tagsInput, "", .publicNote⟩
  else if noteType = 3 then some ⟨title, description, addNoteTags tagsInput, "", .generic⟩
  else none

/-- Tags joined by a separator with no trailing separator. -/
def joinSep (sep : List Char) : List (List Char) → List Char
  | [] => []
  | [x] => x
  | x :: y :: rest => x ++ sep ++ joinSep sep (y :: rest)

/-- C++ `Note::getDetails`: build the header, append `tag + ", "` for every
tag, then `pop_back()` twice. -/
def Note.getDetails (nt : Note) : List Char :=
  (("Title: ".data ++ nt.title.data ++ "\nDescription: ".data ++ nt.description.data
      ++ "\nTags: ".data)
    ++ (nt.tags.map (fun tag => tag.data ++ ", ".data)).flatten).dropLast.dropLast

/-- Setting the element right after a prefix rewrites the head of the tail. -/
theorem set_append_cons {α : Type} (pre : List α) (m : α) (rest : List α) (a : α) :
    (pre ++ m :: rest).set pre.length a = pre ++ a :: rest := by
  induction pre with
  | nil => rfl
  | cons x xs ih => simp [ih]

/-- The write-back loop produces `pre ++ List.merge L R le ++ suf` when it is
run over a region `mid` of exactly the combined length, starting right after
`pre`. -/
theorem mergeLoop_spec (le : Task → Task → Bool) :
    ∀ (L R mid : List Task), ∀ (pre suf : List Task),
      mid.length = L.length + R.length →
      mergeLoop le L R (pre ++ mid ++ suf) pre.length = pre ++ List.merge L R le ++ suf
  | [], [], mid, pre, suf, h => by
    have hm : mid = [] := List.eq_nil_of_length_eq_zero (by simpa using h)
    subst hm
    simp [mergeLoop]
  | a :: as, [], mid, pre, suf, h => by
    match mid, h with
    | [], h => simp only [List.length_nil, List.length_cons] at h; omega
    | m :: ms, h =>
      have hms : ms.length = as.length + ([] : List Task).length := by simpa using h
      have ih := mergeLoop_spec le as [] ms (pre ++ [a]) suf hms
      simp only [mergeLoop]
      rw [show pre ++ m :: ms ++ suf = pre ++ m :: (ms ++ suf) by simp,
        set_append_cons]
      simp only [List.append_assoc, List.cons_append, List.nil_append,
        List.length_append, List.length_cons, List.length_nil, List.merge_right] at ih ⊢
      exact ih
  | [], b :: bs, mid, pre, suf, h => by
    match mid, h with
    | [], h => simp only [List.length_nil, List.length_cons] at h; omega
    | m :: ms, h =>
      have hms : ms.length = ([] : List Task).length + bs.length := by simpa using h
      have ih := mergeLoop_spec le [] bs ms (pre ++ [b]) suf hms
      simp only [mergeLoop]
      rw [show pre ++ m :: ms ++ suf = pre ++ m :: (ms ++ suf) by simp,
        set_append_cons]
      simp only [List.append_assoc, List.cons_append, List.nil_append,
        List.length_append, List.length_cons, List.length_nil, List.nil_merge] at ih ⊢
      exact ih
  | a :: as, b :: bs, mid, pre, suf, h => by
    match mid, h with
    | [], h => simp only [List.length_nil, List.length_cons] at h; omega
    | m :: ms, h =>
      simp only [mergeLoop]
      rw [show pre ++ m :: ms ++ suf = pre ++ m :: (ms ++ suf) by simp]
      by_cases hab : le a b
      · have hms : ms.length = as.length + (b :: bs).length := by
          simp only [List.length_cons] at h ⊢; omega
        have ih := mergeLoop_spec le as (b :: bs) ms (pre ++ [a]) suf hms
        rw [if_pos hab, set_append_cons, List.cons_merge_cons_pos le as bs hab]
        simp only [List.append_assoc, List.cons_append, List.nil_append,
          List.length_append, List.length_cons, List.length_nil,
          Nat.zero_add, Nat.add_zero] at ih ⊢
        exact ih
      · have hms : ms.length = (a :: as).length + bs.length := by
          simp only [List.length_cons] at h ⊢; omega
        have ih := mergeLoop_spec le (a :: as) bs ms (pre ++ [b]) suf hms
        rw [if_neg hab, set_append_cons, List.cons_merge_cons_neg le as bs hab]
        simp only [List.append_assoc, List.cons_append, List.nil_append,
          List.length_append, List.length_cons, List.length_nil,
          Nat.zero_add, Nat.add_zero] at ih ⊢
        exact ih
termination_by L R _ _ _ => L.length + R.length

/-- Length of an inclusive in-range segment. -/
theorem seg_length (l : List Task) (a b : Nat) (ha : a ≤ b) (hb : b < l.length) :
    (seg l a b).length = b - a + 1 := by
  simp only [seg, List.length_take, List.length_drop]
  omega

/-- C++ `merge` rewrites `tasks[left..right]` with the merge of its two
halves and leaves the rest of the vector unchanged. -/
theorem mergeCpp_spec (le : Task → Task → Bool) (tasks : List Task) (left mid right : Nat)
    (h1 : left ≤ mid) (h2 : mid < right) (h3 : right < tasks.length) :
    mergeCpp le tasks left mid right
      = tasks.take left ++ List.merge (seg tasks left mid) (seg tasks (mid+1) right) le
          ++ tasks.drop (right+1) := by
  have hdecomp : tasks = tasks.take left ++ seg tasks left right ++ tasks.drop (right+1) := by
    rw [List.append_assoc]
    conv_lhs => rw [← List.take_append_drop left tasks]
    congr 1
    conv_lhs => rw [← List.take_append_drop (right - left + 1) (tasks.drop left)]
    congr 1
    rw [List.drop_drop]
    congr 1
    omega
  have hL : (seg tasks left mid).length = mid - left + 1 := seg_length _ _ _ h1 (by omega)
  have hR : (seg tasks (mid+1) right).length = right - mid := by
    rw [seg_length tasks (mid+1) right (by omega) h3]
    omega
  have hmidlen : (seg tasks left right).length
      = (seg tasks left mid).length + (seg tasks (mid+1) right).length := by
    rw [hL, hR, seg_length tasks left right (by omega) h3]
    omega
  have hpre : (tasks.take left).length = left := by
    simp only [List.length_take]
    omega
  have key := mergeLoop_spec le (seg tasks left mid) (seg tasks (mid+1) right)
    (seg tasks left right) (tasks.take left) (tasks.drop (right+1)) hmidlen
  rw [hpre] at key
  show mergeLoop le (seg tasks left mid) (seg tasks (mid+1) right) tasks left = _
  rw [← key, ← hdecomp]

/-- Unfolding of the core `List.mergeSort` at a list of length at least two:
it splits at `(length + 1) / 2` (first half one longer for odd lengths) and
merges the recursively sorted halves.  This matches the C++ midpoint
`mid = left + (right - left) / 2`, whose left half `[left..mid]` also has
`ceil(len / 2)` elements. -/
theorem mergeSort_split (le : Task → Task → Bool) (l : List Task) (h : 2 ≤ l.length) :
    List.mergeSort l le
      = List.merge (List.mergeSort (l.take ((l.length + 1) / 2)) le)
          (List.mergeSort (l.drop ((l.length + 1) / 2)) le) le := by
  match l, h with
  | x :: y :: xs, _ =>
    rw [List.mergeSort]
    simp only [List.splitInTwo_fst, List.splitInTwo_snd, List.length_cons]

/-- C++ `mergeSort(tasks, left, right)` sorts the segment `tasks[left..right]`
exactly as the reference `List.mergeSort` and leaves the rest of the vector
unchanged. -/
theorem mergeSortCpp_spec (le : Task → Task → Bool) (tasks : List Task) (left right : Nat)
    (hlr : left ≤ right) (hr : right < tasks.length) :
    mergeSortCpp le tasks left right
      = tasks.take left ++ List.mergeSort (seg tasks left right) le ++ tasks.drop (right+1) := by
  rcases Nat.lt_or_ge left right with hlt | hge
  · -- recursive case: left < right
    have hmid1 : left ≤ left + (right - left) / 2 := by omega
    have hmid2 : left + (right - left) / 2 < right := by omega
    set mid := left + (right - left) / 2 with hmid
    have ih1 := mergeSortCpp_spec le tasks left mid (by omega) (by omega)
    set A := tasks.take left with hA
    set M1 := List.mergeSort (seg tasks left mid) le with hM1
    set B := tasks.drop (mid+1) with hB
    set t1 := mergeSortCpp le tasks left mid with ht1def
    have hAlen : A.length = left := by
      rw [hA]; simp only [List.length_take]; omega
    have hM1len : M1.length = mid - left + 1 := by
      rw [hM1, List.length_mergeSort, seg_length tasks left mid (by omega) (by omega)]
    have ht1len : t1.length = tasks.length := by
      rw [ih1]
      simp only [List.length_append, hAlen, hM1len, hB, List.length_drop]
      omega
    have ih2 := mergeSortCpp_spec le t1 (mid+1) right (by omega) (by omega)
    set M2 := List.mergeSort (seg tasks (mid+1) right) le with hM2
    have hM2len : M2.length = right - mid := by
      rw [hM2, List.length_mergeSort, seg_length tasks (mid+1) right (by omega) hr]
      omega
    -- rewrite the intermediate pieces of `ih2` in terms of the original vector
    have f1 : t1.take (mid+1) = A ++ M1 := by
      rw [ih1]
      exact List.take_left' (by rw [List.length_append, hAlen, hM1len]; omega)
    have f2 : t1.drop (mid+1) = B := by
      rw [ih1]
      exact List.drop_left' (by rw [List.length_append, hAlen, hM1len]; omega)
    have f3 : seg t1 (mid+1) right = seg tasks (mid+1) right := by
      unfold seg
      rw [f2, hB]
    have f4 : t1.drop (right+1) = tasks.drop (right+1) := by
      have e1 : t1.drop (right+1) = (t1.drop (mid+1)).drop (right - mid) := by
        rw [List.drop_drop]; congr 1; omega
      rw [e1, f2, hB, List.drop_drop]
      congr 1
      omega
    have ht2 : mergeSortCpp le t1 (mid+1) right
        = A ++ M1 ++ M2 ++ tasks.drop (right+1) := by
      rw [ih2, f1, f3, f4, ← hM2]
    set t2 := mergeSortCpp le t1 (mid+1) right with ht2def
    have ht2len : t2.length = tasks.length := by
      rw [ht2]
      simp only [List.length_append, List.length_drop, hAlen, hM1len, hM2len]
      omega
    -- the pieces that `mergeCpp` reads from `t2`
    have g1 : t2.take left = A := by
      rw [ht2, show A ++ M1 ++ M2 ++ tasks.drop (right+1)
            = A ++ (M1 ++ (M2 ++ tasks.drop (right+1))) by simp]
      exact List.take_left' hAlen
    have g2 : seg t2 left mid = M1 := by
      unfold seg
      rw [ht2, show A ++ M1 ++ M2 ++ tasks.drop (right+1)
            = A ++ (M1 ++ (M2 ++ tasks.drop (right+1))) by simp,
        List.drop_left' hAlen]
      exact List.take_left' hM1len
    have g3 : seg t2 (mid+1) right = M2 := by
      unfold seg
      rw [ht2, show A ++ M1 ++ M2 ++ tasks.drop (right+1)
            = (A ++ M1) ++ (M2 ++ tasks.drop (right+1)) by simp,
        List.drop_left' (by rw [List.length_append, hAlen, hM1len]; omega)]
      exact List.take_left' (by rw [hM2len]; omega)
    have g4 : t2.drop (right+1) = tasks.drop (right+1) := by
      rw [ht2, show A ++ M1 ++ M2 ++ tasks.drop (right+1)
            = (A ++ M1 ++ M2) ++ tasks.drop (right+1) by simp]
      exact List.drop_left' (by
        simp only [List.length_append, hAlen, hM1len, hM2len]; omega)
    -- relate the final merge with the reference mergeSort of the whole segment
    have hseglen : (seg tasks left right).length = right - left + 1 :=
      seg_length tasks left right (by omega) hr
    have s0 : ((seg tasks left right).length + 1) / 2 = mid - left + 1 := by
      rw [hseglen]; omega
    have s1 : (seg tasks left right).take (mid - left + 1) = seg tasks left mid := by
      unfold seg
      rw [List.take_take]
      congr 1
      omega
    have s2 : (seg tasks left right).drop (mid - left + 1) = seg tasks (mid+1) right := by
      unfold seg
      have e1 : right - left + 1 - (mid - left + 1) = right - (mid+1) + 1 := by omega
      have e2 : left + (mid - left + 1) = mid + 1 := by omega
      rw [List.drop_take, List.drop_drop, e1, e2]
    have hsplit : List.mergeSort (seg tasks left right) le = List.merge M1 M2 le := by
      rw [mergeSort_split le _ (by rw [hseglen]; omega), s0, s1, s2, hM1, hM2]
    -- put everything together
    rw [mergeSortCpp]
    rw [if_neg (by omega)]
    simp only [← hmid, ← ht1def, ← ht2def]
    rw [mergeCpp_spec le t2 left mid right (by omega) (by omega) (by omega),
      g1, g2, g3, g4, hsplit, hA]
  · -- base case: left = right (a one-element segment is left unchanged)
    have heq : left = right := Nat.le_antisymm hlr hge
    subst heq
    rw [mergeSortCpp, if_pos (Nat.le_refl left)]
    have hseg : seg tasks left left = [tasks[left]] := by
      unfold seg
      rw [Nat.sub_self, List.drop_eq_getElem_cons hr]
      rfl
    rw [hseg, List.mergeSort_singleton]
    conv_lhs => rw [← List.take_append_drop left tasks]
    rw [List.drop_eq_getElem_cons hr]
    simp
termination_by right - left
decreasing_by all_goals omega

/-- The full-vector invocation `mergeSort(tasks, 0, tasks.size() - 1)`
computes exactly the reference `List.mergeSort`. -/
theorem mergeSortCpp_run (le : Task → Task → Bool) (tasks : List Task) :
    mergeSortCpp le tasks 0 (tasks.length - 1) = List.mergeSort tasks le := by
  match tasks with
  | [] =>
    rw [mergeSortCpp, if_pos (by simp)]
    exact (List.mergeSort_nil).symm
  | t :: ts =>
    rw [mergeSortCpp_spec le (t :: ts) 0 ((t :: ts).length - 1) (by omega)
      (by simp only [List.length_cons]; omega)]
    unfold seg
    rw [List.drop_zero,
      show (t :: ts).length - 1 - 0 + 1 = (t :: ts).length by
        simp only [List.length_cons]; omega,
      List.take_length, List.take_zero,
      show (t :: ts).length - 1 + 1 = (t :: ts).length by
        simp only [List.length_cons]; omega,
      List.drop_length]
    simp

/-- `priorityLE` is transitive. -/
theorem priorityLE_trans : ∀ a b c : Task, priorityLE a b → priorityLE b c → priorityLE a c := by
  intro a b c hab hbc
  simp only [priorityLE, decide_eq_true_eq] at *
  omega

/-- `priorityLE` is total. -/
theorem priorityLE_total : ∀ a b : Task, priorityLE a b || priorityLE b a := by
  intro a b
  simp only [priorityLE, Bool.or_eq_true, decide_eq_true_eq]
  omega

/-- `deadlineLE` is transitive. -/
theorem deadlineLE_trans : ∀ a b c : Task, deadlineLE a b → deadlineLE b c → deadlineLE a c := by
  intro a b c hab hbc
  simp only [deadlineLE, decide_eq_true_eq] at *
  exact le_trans hab hbc

/-- `deadlineLE` is total. -/
theorem deadlineLE_total : ∀ a b : Task, deadlineLE a b || deadlineLE b a := by
  intro a b
  simp only [deadlineLE, Bool.or_eq_true, decide_eq_true_eq]
  exact le_total a.deadline b.deadline

/-- Stability of the reference merge sort, in subsequence form: filtering the
output by a class of keys that compare equal under `le` gives back the
filtered input unchanged. -/
theorem mergeSort_filter_stable (le : Task → Task → Bool)
    (trans : ∀ a b c : Task, le a b → le b c → le a c)
    (total : ∀ a b : Task, le a b || le b a)
    (tasks : List Task) (q : Task → Bool) (hq : ∀ a b : Task, q a → q b → le a b) :
    (List.mergeSort tasks le).filter q = tasks.filter q := by
  have h1 : (tasks.filter q).Pairwise (le · ·) := by
    refine List.pairwise_of_forall_mem_list ?_
    intro a ha b hb
    exact hq a b (List.of_mem_filter ha) (List.of_mem_filter hb)
  have h2 : List.Sublist (tasks.filter q) (List.mergeSort tasks le) :=
    List.sublist_mergeSort trans total h1 (List.filter_sublist tasks)
  have h3 : List.Sublist ((tasks.filter q).filter q) ((List.mergeSort tasks le).filter q) :=
    h2.filter q
  rw [List.filter_eq_self.mpr (fun a ha => List.of_mem_filter ha)] at h3
  have h4 : List.Perm ((List.mergeSort tasks le).filter q) (tasks.filter q) :=
    (List.mergeSort_perm tasks le).filter q
  exact (h3.eq_of_length h4.length_eq.symm).symm

/-- C2: for every sequence of tasks, sorting by priority with `mergeSort`
yields a sequence sorted ascending by the integer priority key, that is a
permutation of the input (no task lost or duplicated), and in which tasks of
equal priority retain their original relative order: for every priority `p`
the subsequence of tasks with priority `p` is unchanged. -/
theorem C2_sortByPriority_sorted_perm_stable (tasks : List Task) :
    (sortByPriority tasks).Pairwise (fun a b => a.priority ≤ b.priority)
      ∧ List.Perm (sortByPriority tasks) tasks
      ∧ ∀ p : Int, (sortByPriority tasks).filter (fun t => t.priority == p)
          = tasks.filter (fun t => t.priority == p) := by
  unfold sortByPriority
  rw [mergeSortCpp_run]
  refine ⟨?_, List.mergeSort_perm tasks priorityLE, ?_⟩
  · refine (List.sorted_mergeSort priorityLE_trans priorityLE_total tasks).imp ?_
    intro a b h
    simpa [priorityLE] using h
  · intro p
    refine mergeSort_filter_stable priorityLE priorityLE_trans priorityLE_total tasks _ ?_
    intro a b ha hb
    simp only [beq_iff_eq] at ha hb
    simp [priorityLE, ha, hb]

/-- C4: for every sequence of tasks, sorting by deadline with
`mergeSortByDeadline` yields a sequence sorted ascending by lexicographic
comparison of the raw deadline strings, that is a permutation of the input,
and is stable: tasks with equal deadline strings retain their original
relative order. -/
theorem C4_sortByDeadline_sorted_perm_stable (tasks : List Task) :
    (sortByDeadline tasks).Pairwise (fun a b => a.deadline ≤ b.deadline)
      ∧ List.Perm (sortByDeadline tasks) tasks
      ∧ ∀ d : String, (sortByDeadline tasks).filter (fun t => t.deadline == d)
          = tasks.filter (fun t => t.deadline == d) := by
  unfold sortByDeadline
  rw [mergeSortCpp_run]
  refine ⟨?_, List.mergeSort_perm tasks deadlineLE, ?_⟩
  · refine (List.sorted_mergeSort deadlineLE_trans deadlineLE_total tasks).imp ?_
    intro a b h
    simpa [deadlineLE] using h
  · intro d
    refine mergeSort_filter_stable deadlineLE deadlineLE_trans deadlineLE_total tasks _ ?_
    intro a b ha hb
    simp only [beq_iff_eq] at ha hb
    simp [deadlineLE, ha, hb]

/-! ## Progress-ranking engine: heap sort over goals -/

/-- The winning index is the node itself or one of its two in-range children. -/
theorem largestIdx_cases (goals : List Goal) (n i : Nat) :
    largestIdx goals n i = i
      ∨ ((largestIdx goals n i = 2*i+1 ∨ largestIdx goals n i = 2*i+2)
          ∧ largestIdx goals n i < n) := by
  unfold largestIdx
  dsimp only
  split_ifs <;> omega

/-- Overwriting an entry with itself leaves the list unchanged. -/
theorem set_self {α : Type} (l : List α) (i : Nat) (h : i < l.length) : l.set i l[i] = l := by
  apply List.ext_getElem?
  intro j
  by_cases hj : j = i
  · subst hj
    simp [List.getElem?_set_self h, List.getElem?_eq_getElem h]
  · rw [List.getElem?_set_ne (Ne.symm hj)]

/-- Swapping two entries of the vector is a permutation. -/
theorem swapL_perm {α : Type} [DecidableEq α] (l : List α) (i j : Nat) :
    List.Perm (swapL l i j) l := by
  unfold swapL
  split
  · rename_i a b hia hjb
    obtain ⟨hi, hia'⟩ := List.getElem?_eq_some_iff.mp hia
    obtain ⟨hj, hjb'⟩ := List.getElem?_eq_some_iff.mp hjb
    by_cases hij : i = j
    · subst hij
      have hab : a = b := by rw [hia] at hjb; exact Option.some.inj hjb
      subst hab
      rw [List.set_set, ← hia', set_self l i hi]
    · rw [List.perm_iff_count]
      intro x
      have hjlen : j < (l.set i b).length := by simpa using hj
      rw [List.count_set a x (l.set i b) j hjlen,
        List.count_set b x l i hi]
      have hgj : (l.set i b)[j] = b := by
        rw [List.getElem_set_ne hij]
        · exact hjb'
      have hmem_i : l[i] ∈ l := List.getElem_mem hi
      have hmem_j : l[j] ∈ l := List.getElem_mem hj
      have hcnt_i : l[i] = x → 1 ≤ l.count x := by
        intro he; exact List.count_pos_iff.mpr (he ▸ hmem_i)
      have hcnt_j : l[j] = x → 1 ≤ l.count x := by
        intro he; exact List.count_pos_iff.mpr (he ▸ hmem_j)
      rw [hgj, hia']
      have hcnt_a : a = x → 1 ≤ l.count x := fun he => hcnt_i (by rw [hia', he])
      have hcnt_b : b = x → 1 ≤ l.count x := fun he => hcnt_j (by rw [hjb', he])
      simp only [beq_iff_eq]
      by_cases hax : a = x <;> by_cases hbx : b = x
      · have := hcnt_a hax
        simp only [if_pos hax, if_pos hbx]
        omega
      · have := hcnt_a hax
        simp only [if_pos hax, if_neg hbx]
        omega
      · have := hcnt_b hbx
        simp only [if_neg hax, if_pos hbx]
        omega
      · simp only [if_neg hax, if_neg hbx]
        omega
  · exact List.Perm.refl l

/-- Unfolded form of `swapL` for in-range indices. -/
theorem swapL_eq {α : Type} (l : List α) (i j : Nat) (hi : i < l.length) (hj : j < l.length) :
    swapL l i j = (l.set i l[j]).set j l[i] := by
  unfold swapL
  rw [List.getElem?_eq_getElem hi, List.getElem?_eq_getElem hj]

/-- `swapL` preserves the length. -/
theorem swapL_length {α : Type} (l : List α) (i j : Nat) :
    (swapL l i j).length = l.length := by
  unfold swapL
  split <;> simp

/-- Entries away from both swapped positions are unchanged. -/
theorem swapL_getElem?_other {α : Type} (l : List α) (i j k : Nat)
    (h1 : k ≠ i) (h2 : k ≠ j) : (swapL l i j)[k]? = l[k]? := by
  unfold swapL
  split
  · rw [List.getElem?_set_ne (Ne.symm h2), List.getElem?_set_ne (Ne.symm h1)]
  · rfl

/-- The first swapped position receives the second entry. -/
theorem swapL_getElem?_fst {α : Type} (l : List α) (i j : Nat)
    (hi : i < l.length) (hj : j < l.length) : (swapL l i j)[i]? = some l[j] := by
  rw [swapL_eq l i j hi hj]
  by_cases hij : i = j
  · subst hij
    rw [List.set_set]
    exact List.getElem?_set_self (by simpa using hi)
  · rw [List.getElem?_set_ne (fun he => hij he.symm)]
    exact List.getElem?_set_self (by simpa using hi)

/-- The second swapped position receives the first entry. -/
theorem swapL_getElem?_snd {α : Type} (l : List α) (i j : Nat)
    (hi : i < l.length) (hj : j < l.length) : (swapL l i j)[j]? = some l[i] := by
  rw [swapL_eq l i j hi hj]
  exact List.getElem?_set_self (by simpa using hj)

/-- Equal entries give equal keys. -/
theorem progAt_congr {l₁ l₂ : List Goal} {j : Nat} (h : l₁[j]? = l₂[j]?) :
    progAt l₁ j = progAt l₂ j := by
  unfold progAt
  rw [h]

/-- Key at the first swapped position. -/
theorem progAt_swapL_fst (l : List Goal) (i j : Nat) (hi : i < l.length) (hj : j < l.length) :
    progAt (swapL l i j) i = progAt l j := by
  unfold progAt
  rw [swapL_getElem?_fst l i j hi hj, List.getElem?_eq_getElem hj]

/-- Key at the second swapped position. -/
theorem progAt_swapL_snd (l : List Goal) (i j : Nat) (hi : i < l.length) (hj : j < l.length) :
    progAt (swapL l i j) j = progAt l i := by
  unfold progAt
  rw [swapL_getElem?_snd l i j hi hj, List.getElem?_eq_getElem hi]

/-- Key away from both swapped positions. -/
theorem progAt_swapL_other (l : List Goal) (i j k : Nat) (h1 : k ≠ i) (h2 : k ≠ j) :
    progAt (swapL l i j) k = progAt l k :=
  progAt_congr (swapL_getElem?_other l i j k h1 h2)

/-- In-range keys are at least `-1` when every stored goal's `getProgress()`
is at least `-1`. -/
theorem progAt_lb (l : List Goal) (H : ∀ g ∈ l, -1 ≤ g.getProgress) (j : Nat)
    (hj : j < l.length) : -1 ≤ progAt l j := by
  unfold progAt
  rw [List.getElem?_eq_getElem hj]
  exact H _ (List.getElem_mem hj)

/-- `heapify` permutes the vector (it only swaps entries). -/
theorem heapify_perm (goals : List Goal) (n i : Nat) :
    List.Perm (heapify goals n i) goals := by
  rw [heapify]
  by_cases h : largestIdx goals n i ≠ i
  · rw [dif_pos h]
    exact (heapify_perm _ n _).trans (swapL_perm goals i _)
  · rw [dif_neg h]
termination_by n - i
decreasing_by
  rcases largestIdx_cases goals n i with h1 | h1
  · exact absurd h1 h
  · omega

/-- `heapify` preserves the length. -/
theorem heapify_length (goals : List Goal) (n i : Nat) :
    (heapify goals n i).length = goals.length :=
  (heapify_perm goals n i).length_eq

/-- `heapify goals n i` never writes at or beyond index `n`. -/
theorem heapify_outside (goals : List Goal) (n i : Nat) :
    ∀ j, n ≤ j → (heapify goals n i)[j]? = goals[j]? := by
  intro j hj
  rw [heapify]
  by_cases h : largestIdx goals n i ≠ i
  · rw [dif_pos h]
    rcases largestIdx_cases goals n i with h1 | h1
    · exact absurd h1 h
    · rw [heapify_outside _ n _ j hj,
        swapL_getElem?_other goals i (largestIdx goals n i) j (by omega) (by omega)]
  · rw [dif_neg h]
termination_by n - i
decreasing_by
  rcases largestIdx_cases goals n i with h2 | h2
  · exact absurd h2 h
  · omega

/-- Subtree indices are at least the root index. -/
theorem desc_le {i j : Nat} (h : Desc i j) : i ≤ j := by
  induction h with
  | refl => exact Nat.le_refl _
  | stepL _ ih => omega
  | stepR _ ih => omega

/-- Subtree containment is transitive. -/
theorem desc_trans {i j k : Nat} (h1 : Desc i j) (h2 : Desc j k) : Desc i k := by
  induction h2 with
  | refl => exact h1
  | stepL _ ih => exact .stepL ih
  | stepR _ ih => exact .stepR ih

/-- A subtree member is the root or the child of a subtree member. -/
theorem desc_elim {i j : Nat} (h : Desc i j) :
    j = i ∨ ∃ k, Desc i k ∧ (j = 2*k+1 ∨ j = 2*k+2) := by
  cases h with
  | refl => exact Or.inl rfl
  | stepL hd => exact Or.inr ⟨_, hd, Or.inl rfl⟩
  | stepR hd => exact Or.inr ⟨_, hd, Or.inr rfl⟩

/-- Every index lies in the subtree of the root `0`. -/
theorem desc_zero : ∀ j, Desc 0 j := by
  intro j
  induction j using Nat.strong_induction_on with
  | _ j ih =>
    match j with
    | 0 => exact .refl 0
    | j+1 =>
      have hp : (j+1-1)/2 < j+1 := by omega
      have hd := ih ((j+1-1)/2) hp
      rcases (by omega : j+1 = 2*((j+1-1)/2)+1 ∨ j+1 = 2*((j+1-1)/2)+2) with he | he
      · rw [he]; exact .stepL hd
      · rw [he]; exact .stepR hd

/-- In a region where every parent from `k` on dominates its children, every
subtree value is dominated by its root. -/
theorem chain_le (l : List Goal) (n k : Nat) (hheap : ∀ p, k ≤ p → childDom l n p) :
    ∀ j, Desc k j → j < n → progAt l j ≤ progAt l k := by
  intro j hdesc
  induction hdesc with
  | refl => exact fun _ => le_refl _
  | @stepL m hd ih =>
    intro hlt
    have h1 : progAt l (2*m+1) ≤ progAt l m := (hheap m (desc_le hd)).1 hlt
    exact le_trans h1 (ih (by omega))
  | @stepR m hd ih =>
    intro hlt
    have h1 : progAt l (2*m+2) ≤ progAt l m := (hheap m (desc_le hd)).2 hlt
    exact le_trans h1 (ih (by omega))

/-- The winning index of `heapify` carries a key at least as large as the
node's own key and both in-range children's keys, provided every stored key
is at least the sentinel `-1`. -/
theorem largestIdx_spec (l : List Goal) (n i : Nat) (hn : n ≤ l.length)
    (H : ∀ g ∈ l, -1 ≤ g.getProgress) (hi : i < n) :
    progAt l i ≤ progAt l (largestIdx l n i)
    ∧ (2*i+1 < n → progAt l (2*i+1) ≤ progAt l (largestIdx l n i))
    ∧ (2*i+2 < n → progAt l (2*i+2) ≤ progAt l (largestIdx l n i)) := by
  have hlb : ∀ j, j < n → (-1 : Int) ≤ progAt l j :=
    fun j hj => progAt_lb l H j (lt_of_lt_of_le hj hn)
  have hbi := hlb i hi
  unfold largestIdx
  dsimp only
  by_cases hc1 : 2*i+1 < n <;> by_cases hc2 : 2*i+2 < n
  · have hb1 := hlb _ hc1
    have hb2 := hlb _ hc2
    split_ifs <;> refine ⟨by omega, fun _ => by omega, fun _ => by omega⟩
  · have hb1 := hlb _ hc1
    split_ifs <;> refine ⟨by omega, fun _ => by omega, fun _ => by omega⟩
  · have hb2 := hlb _ hc2
    split_ifs <;> refine ⟨by omega, fun _ => by omega, fun _ => by omega⟩
  · split_ifs <;> refine ⟨by omega, fun _ => by omega, fun _ => by omega⟩

/-- Sift-down correctness of `heapify` under the sentinel lower bound: if
every parent strictly below `i` already dominates its children, then after
`heapify goals n i` every parent from `i` on dominates its children, entries
outside the subtree of `i` are untouched, and any upper bound on the subtree
keys is preserved. -/
theorem heapify_spec (l : List Goal) (n i : Nat) (hn : n ≤ l.length)
    (H : ∀ g ∈ l, -1 ≤ g.getProgress)
    (pre : ∀ p, i < p → childDom l n p) :
    (∀ p, i ≤ p → childDom (heapify l n i) n p)
    ∧ (∀ j, ¬ Desc i j → (heapify l n i)[j]? = l[j]?)
    ∧ (∀ b : Int, (∀ j, Desc i j → j < n → progAt l j ≤ b) →
        ∀ j, Desc i j → j < n → progAt (heapify l n i) j ≤ b) := by
  by_cases hL : largestIdx l n i ≠ i
  · -- a child won: swap and recurse
    rcases largestIdx_cases l n i with h1 | ⟨hLc, hLn⟩
    · exact absurd h1 hL
    have hiL : i < largestIdx l n i := by omega
    have hiN : i < n := by omega
    have hiLen : i < l.length := lt_of_lt_of_le hiN hn
    have hLLen : largestIdx l n i < l.length := lt_of_lt_of_le hLn hn
    have hDiL : Desc i (largestIdx l n i) := by
      rcases hLc with he | he
      · rw [he]; exact .stepL (.refl i)
      · rw [he]; exact .stepR (.refl i)
    have hstep : heapify l n i
        = heapify (swapL l i (largestIdx l n i)) n (largestIdx l n i) := by
      rw [heapify, dif_pos hL]
    have hlen' : (swapL l i (largestIdx l n i)).length = l.length := swapL_length _ _ _
    have H' : ∀ g ∈ swapL l i (largestIdx l n i), -1 ≤ g.getProgress :=
      fun g hg => H g ((swapL_perm l i (largestIdx l n i)).subset hg)
    have lspec := largestIdx_spec l n i hn H hiN
    have pre' : ∀ p, largestIdx l n i < p → childDom (swapL l i (largestIdx l n i)) n p := by
      intro p hp
      have hCD := pre p (by omega)
      have e1 := progAt_swapL_other l i (largestIdx l n i) p (by omega) (by omega)
      have e2 := progAt_swapL_other l i (largestIdx l n i) (2*p+1) (by omega) (by omega)
      have e3 := progAt_swapL_other l i (largestIdx l n i) (2*p+2) (by omega) (by omega)
      exact ⟨fun h => by rw [e2, e1]; exact hCD.1 h,
        fun h => by rw [e3, e1]; exact hCD.2 h⟩
    have hchainL : ∀ j, Desc (largestIdx l n i) j → j < n
        → progAt l j ≤ progAt l (largestIdx l n i) :=
      chain_le l n (largestIdx l n i) (fun p hp => pre p (by omega))
    have hboundL : ∀ j, Desc (largestIdx l n i) j → j < n
        → progAt (swapL l i (largestIdx l n i)) j ≤ progAt l (largestIdx l n i) := by
      intro j hdesc hjn
      by_cases hjL : j = largestIdx l n i
      · rw [hjL, progAt_swapL_snd l i (largestIdx l n i) hiLen hLLen]
        exact lspec.1
      · have hji : j ≠ i := by have := desc_le hdesc; omega
        rw [progAt_swapL_other l i (largestIdx l n i) j hji hjL]
        exact hchainL j hdesc hjn
    obtain ⟨ih1, ih2, ih3⟩ := heapify_spec (swapL l i (largestIdx l n i)) n
      (largestIdx l n i) (by omega) H' pre'
    rw [hstep]
    have hnotdesc_i : ¬ Desc (largestIdx l n i) i := fun h => by have := desc_le h; omega
    have hv_i : progAt (heapify (swapL l i (largestIdx l n i)) n (largestIdx l n i)) i
        = progAt l (largestIdx l n i) := by
      rw [progAt_congr (ih2 i hnotdesc_i), progAt_swapL_fst l i (largestIdx l n i) hiLen hLLen]
    refine ⟨?_, ?_, ?_⟩
    · -- heap property from i on
      intro p hp
      rcases Nat.eq_or_lt_of_le hp with rfl | hplt
      · -- childDom at i itself
        constructor
        · intro h1
          by_cases hcl : 2*i+1 = largestIdx l n i
          · rw [hv_i, hcl]
            exact ih3 (progAt l (largestIdx l n i)) hboundL (largestIdx l n i)
              (.refl _) hLn
          · have hnd : ¬ Desc (largestIdx l n i) (2*i+1) := by
              intro hd
              rcases desc_elim hd with he | ⟨k, hk, hor⟩
              · exact hcl he
              · have hki := desc_le hk
                rcases hLc with h2 | h2 <;> omega
            have hval : progAt (heapify (swapL l i (largestIdx l n i)) n (largestIdx l n i))
                (2*i+1) = progAt l (2*i+1) := by
              rw [progAt_congr (ih2 _ hnd),
                progAt_swapL_other l i (largestIdx l n i) (2*i+1) (by omega) hcl]
            rw [hval, hv_i]
            exact lspec.2.1 h1
        · intro h1
          by_cases hcl : 2*i+2 = largestIdx l n i
          · rw [hv_i, hcl]
            exact ih3 (progAt l (largestIdx l n i)) hboundL (largestIdx l n i)
              (.refl _) hLn
          · have hnd : ¬ Desc (largestIdx l n i) (2*i+2) := by
              intro hd
              rcases desc_elim hd with he | ⟨k, hk, hor⟩
              · exact hcl he
              · have hki := desc_le hk
                rcases hLc with h2 | h2 <;> omega
            have hval : progAt (heapify (swapL l i (largestIdx l n i)) n (largestIdx l n i))
                (2*i+2) = progAt l (2*i+2) := by
              rw [progAt_congr (ih2 _ hnd),
                progAt_swapL_other l i (largestIdx l n i) (2*i+2) (by omega) hcl]
            rw [hval, hv_i]
            exact lspec.2.2 h1
      · -- p strictly above i
        by_cases hdp : Desc (largestIdx l n i) p
        · exact ih1 p (desc_le hdp)
        · have hp_ne_L : p ≠ largestIdx l n i := fun he => hdp (he ▸ .refl _)
          have hchild1 : ¬ Desc (largestIdx l n i) (2*p+1) := by
            intro hd
            rcases desc_elim hd with he | ⟨k, hk, hor⟩
            · rcases hLc with h2 | h2 <;> omega
            · have hkp : k = p := by omega
              exact hdp (hkp ▸ hk)
          have hchild2 : ¬ Desc (largestIdx l n i) (2*p+2) := by
            intro hd
            rcases desc_elim hd with he | ⟨k, hk, hor⟩
            · rcases hLc with h2 | h2 <;> omega
            · have hkp : k = p := by omega
              exact hdp (hkp ▸ hk)
          have hc1L : 2*p+1 ≠ largestIdx l n i := fun he => hchild1 (he ▸ .refl _)
          have hc2L : 2*p+2 ≠ largestIdx l n i := fun he => hchild2 (he ▸ .refl _)
          have hcd := pre p (by omega)
          have ep : progAt (heapify (swapL l i (largestIdx l n i)) n (largestIdx l n i)) p
              = progAt l p := by
            rw [progAt_congr (ih2 p hdp),
              progAt_swapL_other l i (largestIdx l n i) p (by omega) hp_ne_L]
          have ec1 : progAt (heapify (swapL l i (largestIdx l n i)) n (largestIdx l n i))
              (2*p+1) = progAt l (2*p+1) := by
            rw [progAt_congr (ih2 _ hchild1),
              progAt_swapL_other l i (largestIdx l n i) (2*p+1) (by omega) hc1L]
          have ec2 : progAt (heapify (swapL l i (largestIdx l n i)) n (largestIdx l n i))
              (2*p+2) = progAt l (2*p+2) := by
            rw [progAt_congr (ih2 _ hchild2),
              progAt_swapL_other l i (largestIdx l n i) (2*p+2) (by omega) hc2L]
          exact ⟨fun h => by rw [ec1, ep]; exact hcd.1 h,
            fun h => by rw [ec2, ep]; exact hcd.2 h⟩
    · -- untouched entries
      intro j hnd
      have hne_i : j ≠ i := fun he => hnd (he ▸ .refl i)
      have hnd' : ¬ Desc (largestIdx l n i) j := fun hd => hnd (desc_trans hDiL hd)
      have hne_L : j ≠ largestIdx l n i := fun he => hnd (he ▸ hDiL)
      rw [ih2 j hnd', swapL_getElem?_other l i (largestIdx l n i) j hne_i hne_L]
    · -- bound preservation
      intro b hb j hdesc hjn
      have hb' : ∀ j, Desc (largestIdx l n i) j → j < n
          → progAt (swapL l i (largestIdx l n i)) j ≤ b := by
        intro m hd hm
        by_cases hmL : m = largestIdx l n i
        · rw [hmL, progAt_swapL_snd l i (largestIdx l n i) hiLen hLLen]
          exact hb i (.refl i) hiN
        · have hmi : m ≠ i := by have := desc_le hd; omega
          rw [progAt_swapL_other l i (largestIdx l n i) m hmi hmL]
          exact hb m (desc_trans hDiL hd) hm
      by_cases hdL : Desc (largestIdx l n i) j
      · exact ih3 b hb' j hdL hjn
      · by_cases hji : j = i
        · rw [hji, hv_i]
          exact hb (largestIdx l n i) hDiL hLn
        · have hjL : j ≠ largestIdx l n i := fun he => hdL (he ▸ .refl _)
          rw [progAt_congr (ih2 j hdL),
            progAt_swapL_other l i (largestIdx l n i) j hji hjL]
          exact hb j hdesc hjn
  · -- no child won: already a heap at i
    push_neg at hL
    rw [heapify, dif_neg (by rw [hL]; exact fun h => h rfl)]
    refine ⟨?_, fun j _ => rfl, fun b hb => hb⟩
    intro p hp
    rcases Nat.eq_or_lt_of_le hp with rfl | hplt
    · by_cases hi2 : i < n
      · have spec := largestIdx_spec l n i hn H hi2
        rw [hL] at spec
        exact ⟨fun h => spec.2.1 h, fun h => spec.2.2 h⟩
      · exact ⟨fun h => by omega, fun h => by omega⟩
    · exact pre p hplt
termination_by n - i
decreasing_by
  rcases largestIdx_cases l n i with h1 | h1
  · exact absurd h1 hL
  · omega

/-- The build loop permutes the vector. -/
theorem buildLoop_perm (n : Nat) : ∀ (k : Nat) (l : List Goal),
    List.Perm (buildLoop n k l) l
  | 0, l => List.Perm.refl l
  | k+1, l => (buildLoop_perm n k _).trans (heapify_perm l n k)

/-- The extraction loop permutes the vector. -/
theorem extractLoop_perm : ∀ (k : Nat) (l : List Goal),
    List.Perm (extractLoop k l) l
  | 0, l => List.Perm.refl l
  | k+1, l =>
    (extractLoop_perm k _).trans ((heapify_perm _ k 0).trans (swapL_perm l 0 k))

/-- `heapSort` returns a permutation of its input. -/
theorem heapSort_perm (goals : List Goal) : List.Perm (heapSort goals) goals :=
  (extractLoop_perm _ _).trans (buildLoop_perm _ _ _)

/-- After the build loop, every parent dominates its children. -/
theorem buildLoop_spec (n : Nat) : ∀ (k : Nat) (l : List Goal), n ≤ l.length →
    (∀ g ∈ l, -1 ≤ g.getProgress) → (∀ p, k ≤ p → childDom l n p) →
    ∀ p, childDom (buildLoop n k l) n p
  | 0, _, _, _, hinit => fun p => hinit p (Nat.zero_le p)
  | k+1, l, hn, H, hinit => by
    have hs := heapify_spec l n k hn H (fun p hp => hinit p hp)
    exact buildLoop_spec n k (heapify l n k)
      (by rw [heapify_length]; exact hn)
      (fun g hg => H g ((heapify_perm l n k).subset hg))
      (fun p hp => hs.1 p hp)

/-- Invariant proof for the extraction loop: if the first `k` entries form a
heap, the entries from `k` on are sorted ascending, and every entry below `k`
is at most every entry from `k` on, then the loop ends with the whole vector
sorted ascending by key. -/
theorem extractLoop_spec : ∀ (k : Nat) (l : List Goal), k ≤ l.length →
    (∀ g ∈ l, -1 ≤ g.getProgress) →
    (∀ p, childDom l k p) →
    (∀ a b, k ≤ a → a ≤ b → b < l.length → progAt l a ≤ progAt l b) →
    (∀ j m, j < k → k ≤ m → m < l.length → progAt l j ≤ progAt l m) →
    ∀ a b, a ≤ b → b < l.length →
      progAt (extractLoop k l) a ≤ progAt (extractLoop k l) b
  | 0, l, _, _, _, hsuf, _ => by
    intro a b hab hb
    exact hsuf a b (Nat.zero_le a) hab hb
  | k+1, l, hk, H, hheap, hsuf, hbridge => by
    have hk1 : k < l.length := by omega
    have h0len : 0 < l.length := by omega
    have hslen : (swapL l 0 k).length = l.length := swapL_length l 0 k
    have H' : ∀ g ∈ swapL l 0 k, -1 ≤ g.getProgress :=
      fun g hg => H g ((swapL_perm l 0 k).subset hg)
    have hmax : ∀ j, j < k+1 → progAt l j ≤ progAt l 0 :=
      fun j hj => chain_le l (k+1) 0 (fun p _ => hheap p) j (desc_zero j) hj
    have hs0 : progAt (swapL l 0 k) 0 = progAt l k := progAt_swapL_fst l 0 k h0len hk1
    have hsk : progAt (swapL l 0 k) k = progAt l 0 := progAt_swapL_snd l 0 k h0len hk1
    have pre' : ∀ p, 0 < p → childDom (swapL l 0 k) k p := by
      intro p hp
      constructor
      · intro hc
        rw [progAt_swapL_other l 0 k (2*p+1) (by omega) (by omega),
          progAt_swapL_other l 0 k p (by omega) (by omega)]
        exact (hheap p).1 (by omega)
      · intro hc
        rw [progAt_swapL_other l 0 k (2*p+2) (by omega) (by omega),
          progAt_swapL_other l 0 k p (by omega) (by omega)]
        exact (hheap p).2 (by omega)
    obtain ⟨hh1, hh2, hh3⟩ := heapify_spec (swapL l 0 k) k 0 (by omega) H' pre'
    have houtside : ∀ j, k ≤ j →
        progAt (heapify (swapL l 0 k) k 0) j = progAt (swapL l 0 k) j :=
      fun j hj => progAt_congr (heapify_outside (swapL l 0 k) k 0 j hj)
    have hval_k : progAt (heapify (swapL l 0 k) k 0) k = progAt l 0 := by
      rw [houtside k (Nat.le_refl k), hsk]
    have hval_gt : ∀ m, k < m → progAt (heapify (swapL l 0 k) k 0) m = progAt l m := by
      intro m hm
      rw [houtside m (by omega), progAt_swapL_other l 0 k m (by omega) (by omega)]
    have hprefix_bound : ∀ j, Desc 0 j → j < k → progAt (swapL l 0 k) j ≤ progAt l 0 := by
      intro j _ hj
      by_cases hj0 : j = 0
      · rw [hj0, hs0]
        exact hmax k (by omega)
      · rw [progAt_swapL_other l 0 k j hj0 (by omega)]
        exact hmax j (by omega)
    have hb1 : ∀ j, j < k → progAt (heapify (swapL l 0 k) k 0) j ≤ progAt l 0 :=
      fun j hj => hh3 (progAt l 0) hprefix_bound j (desc_zero j) hj
    have hlen2 : (heapify (swapL l 0 k) k 0).length = l.length := by
      rw [heapify_length, hslen]
    have H2 : ∀ g ∈ heapify (swapL l 0 k) k 0, -1 ≤ g.getProgress :=
      fun g hg => H' g ((heapify_perm _ k 0).subset hg)
    have hsuf2 : ∀ a b, k ≤ a → a ≤ b → b < (heapify (swapL l 0 k) k 0).length →
        progAt (heapify (swapL l 0 k) k 0) a ≤ progAt (heapify (swapL l 0 k) k 0) b := by
      intro a b ha hab hblen
      rw [hlen2] at hblen
      rcases Nat.eq_or_lt_of_le ha with rfl | halt
      · rcases Nat.eq_or_lt_of_le hab with rfl | hblt
        · exact le_refl _
        · rw [hval_k, hval_gt b hblt]
          exact hbridge 0 b (by omega) (by omega) hblen
      · have hbgt : k < b := by omega
        rw [hval_gt a halt, hval_gt b hbgt]
        exact hsuf a b (by omega) hab hblen
    have hbridge2 : ∀ j m, j < k → k ≤ m → m < (heapify (swapL l 0 k) k 0).length →
        progAt (heapify (swapL l 0 k) k 0) j ≤ progAt (heapify (swapL l 0 k) k 0) m := by
      intro j m hj hm hmlen
      rw [hlen2] at hmlen
      rcases Nat.eq_or_lt_of_le hm with rfl | hmgt
      · rw [hval_k]
        exact hb1 j hj
      · rw [hval_gt m hmgt]
        exact le_trans (hb1 j hj) (hbridge 0 m (by omega) (by omega) hmlen)
    have ih := extractLoop_spec k (heapify (swapL l 0 k) k 0) (by omega) H2
      (fun p => hh1 p (Nat.zero_le p)) hsuf2 hbridge2
    intro a b hab hblen
    show progAt (extractLoop k (heapify (swapL l 0 k) k 0)) a
      ≤ progAt (extractLoop k (heapify (swapL l 0 k) k 0)) b
    exact ih a b hab (by omega)

/-- Key of an in-range entry. -/
theorem progAt_eq (l : List Goal) (j : Nat) (hj : j < l.length) :
    progAt l j = l[j].getProgress := by
  unfold progAt
  rw [List.getElem?_eq_getElem hj]
  rfl

/-- `heapSort` sorts ascending by `getProgress()` whenever every stored key is
at least the sentinel `-1` (in particular under the spec invariant
`progress ∈ [0,1]` for quantifiable goals). -/
theorem heapSort_sorted_ascending (goals : List Goal)
    (H : ∀ g ∈ goals, -1 ≤ g.getProgress) :
    (heapSort goals).Pairwise (fun g₁ g₂ => g₁.getProgress ≤ g₂.getProgress) := by
  have hbuild := buildLoop_spec goals.length (goals.length / 2) goals (Nat.le_refl _) H
    (by
      intro p hp
      constructor
      · intro h
        omega
      · intro h
        omega)
  have hblen : (buildLoop goals.length (goals.length / 2) goals).length = goals.length :=
    (buildLoop_perm _ _ _).length_eq
  have Hb : ∀ g ∈ buildLoop goals.length (goals.length / 2) goals, -1 ≤ g.getProgress :=
    fun g hg => H g ((buildLoop_perm _ _ _).subset hg)
  have hsorted := extractLoop_spec goals.length
    (buildLoop goals.length (goals.length / 2) goals) (by omega) Hb hbuild
    (fun a b ha hab hb => by rw [hblen] at hb; omega)
    (fun j m _ hm hmlen => by rw [hblen] at hmlen; omega)
  rw [List.pairwise_iff_getElem]
  intro i j hi hj hij
  have hlen : (heapSort goals).length = goals.length := (heapSort_perm goals).length_eq
  have := hsorted i j (by omega) (by rw [hblen]; omega)
  rw [← progAt_eq _ i (by omega), ← progAt_eq _ j (by omega)]
  exact this

/-- Evaluation of `heapSort` on the concrete two-goal vector: the
non-quantifiable goal comes out FIRST, not last. -/
theorem heapSort_pair_eval :
    heapSort [cQuant, cNonQuant] = [cNonQuant, cQuant] := by
  have hb : buildLoop 2 1 [cQuant, cNonQuant] = [cQuant, cNonQuant] := by
    show buildLoop 2 0 (heapify [cQuant, cNonQuant] 2 0) = _
    rw [heapify, dif_neg (by decide)]
    rfl
  calc heapSort [cQuant, cNonQuant]
      = extractLoop 2 (buildLoop 2 1 [cQuant, cNonQuant]) := rfl
    _ = extractLoop 2 [cQuant, cNonQuant] := by rw [hb]
    _ = extractLoop 1 (heapify (swapL [cQuant, cNonQuant] 0 1) 1 0) := rfl
    _ = extractLoop 1 (heapify [cNonQuant, cQuant] 1 0) := by
        rw [show swapL [cQuant, cNonQuant] 0 1 = [cNonQuant, cQuant] from by decide]
    _ = extractLoop 1 [cNonQuant, cQuant] := by rw [heapify, dif_neg (by decide)]
    _ = extractLoop 0 (heapify (swapL [cNonQuant, cQuant] 0 0) 0 0) := rfl
    _ = extractLoop 0 (heapify [cNonQuant, cQuant] 0 0) := by
        rw [show swapL [cNonQuant, cQuant] 0 0 = [cNonQuant, cQuant] from by decide]
    _ = heapify [cNonQuant, cQuant] 0 0 := rfl
    _ = [cNonQuant, cQuant] := by rw [heapify, dif_neg (by decide)]

/-- C1 (counterexample): on the two-goal input `[quantifiable 50,
non-quantifiable]` the sorted output keys are `[-1, 50]`: the sentinel goal is
placed BEFORE the non-sentinel goal, so the claim "every goal whose
getProgress() is the sentinel -1 is placed after every goal with non-sentinel
progress, and the non-sentinel goals are strictly descending" is false as
stated (the code sorts ascending, sentinels first). -/
theorem C1_counterexample :
    (heapSort [cQuant, cNonQuant]).map Goal.getProgress = [-1, 50]
    ∧ ¬ (∀ j, j < ((heapSort [cQuant, cNonQuant]).map Goal.getProgress).length →
          ∀ i, i < j →
          ((heapSort [cQuant, cNonQuant]).map Goal.getProgress)[i]? = some (-1) →
          ((heapSort [cQuant, cNonQuant]).map Goal.getProgress)[j]? = some (-1)) := by
  have heval : (heapSort [cQuant, cNonQuant]).map Goal.getProgress = [-1, 50] := by
    rw [heapSort_pair_eval]
    decide
  refine ⟨heval, ?_⟩
  rw [heval]
  decide

/-- C1 (amended): for every sequence of goals whose `getProgress()` values
are all at least the sentinel `-1` (which holds under the spec invariant
`progress ∈ [0,1]`), `heapSort` returns the goals sorted ASCENDING by
`getProgress()` — in particular every goal with sentinel progress `-1` is
placed BEFORE every goal with non-sentinel progress, and the non-sentinel
goals are ascending (not strictly: equal progress values stay adjacent). -/
theorem C1_amended_heapSort_ascending_sentinels_first (goals : List Goal)
    (H : ∀ g ∈ goals, -1 ≤ g.getProgress) :
    (heapSort goals).Pairwise (fun g₁ g₂ => g₁.getProgress ≤ g₂.getProgress)
    ∧ ∀ i j (hi : i < (heapSort goals).length) (hj : j < (heapSort goals).length),
        i < j → (heapSort goals)[i].getProgress ≠ -1 →
        (heapSort goals)[j].getProgress ≠ -1 := by
  have hs := heapSort_sorted_ascending goals H
  refine ⟨hs, ?_⟩
  intro i j hi hj hij hne
  have hle : (heapSort goals)[i].getProgress ≤ (heapSort goals)[j].getProgress :=
    (List.pairwise_iff_getElem.mp hs) i j hi hj hij
  have h1 : -1 ≤ (heapSort goals)[i].getProgress :=
    H _ ((heapSort_perm goals).subset (List.getElem_mem hi))
  omega

/-- C1 (witness): the amended theorem applied to the concrete two-goal
vector. -/
theorem C1_witness :
    (∀ g ∈ [cQuant, cNonQuant], -1 ≤ g.getProgress)
    ∧ ((heapSort [cQuant, cNonQuant]).Pairwise
          (fun g₁ g₂ => g₁.getProgress ≤ g₂.getProgress)
        ∧ ∀ i j (hi : i < (heapSort [cQuant, cNonQuant]).length)
            (hj : j < (heapSort [cQuant, cNonQuant]).length),
            i < j → (heapSort [cQuant, cNonQuant])[i].getProgress ≠ -1 →
            (heapSort [cQuant, cNonQuant])[j].getProgress ≠ -1) :=
  ⟨by decide, C1_amended_heapSort_ascending_sentinels_first [cQuant, cNonQuant] (by decide)⟩

/-- C9: for every sequence of goals, `heapSort` returns a permutation of its
input — the multiset of goals is preserved (none lost or duplicated), for all
progress values including sentinels. -/
theorem C9_heapSort_permutation (goals : List Goal) :
    List.Perm (heapSort goals) goals :=
  heapSort_perm goals

/-! ## Text search engine: KMP substring search

`std::string` subscripting becomes indexing into a `List Char`.  The two C++
`while` loops terminate because of the data invariant `lps[k] <= k`; the
embedding gives them explicit fuel (`2*m + 1` and `2*n + 1`), and the
correctness proofs carry the loop potential `2*(bound - index) + state + 1`
showing the fuel is never exhausted. -/

/-- In-range `charAt` is plain indexing. -/
theorem charAt_eq (s : List Char) (i : Nat) (h : i < s.length) : charAt s i = s[i] := by
  unfold charAt
  rw [List.getD_eq_getElem?_getD, List.getElem?_eq_getElem h]
  rfl

/-- `take` of a strictly larger bound appends the next element. -/
theorem take_succ_of_lt (s : List Char) (i : Nat) (h : i < s.length) :
    s.take (i+1) = s.take i ++ [s[i]] := by
  rw [List.take_succ, List.getElem?_eq_getElem h]
  rfl

/-- A suffix relation between two lists extended by one element splits into
the suffix relation of the fronts and equality of the last elements. -/
theorem suffix_append_singleton {a b : List Char} {x y : Char} :
    List.IsSuffix (a ++ [x]) (b ++ [y]) ↔ List.IsSuffix a b ∧ x = y := by
  constructor
  · rintro ⟨t, ht⟩
    rw [← List.append_assoc] at ht
    obtain ⟨h1, h2⟩ := List.append_inj' ht (by simp)
    exact ⟨⟨t, h1⟩, by simpa using h2⟩
  · rintro ⟨⟨t, ht⟩, rfl⟩
    exact ⟨t, by rw [← List.append_assoc, ht]⟩

/-- Of two suffixes of the same list, the shorter is a suffix of the longer. -/
theorem suffix_of_suffix_le {a b c : List Char} (ha : List.IsSuffix a c)
    (hb : List.IsSuffix b c) (hab : a.length ≤ b.length) : List.IsSuffix a b := by
  obtain ⟨s, hs⟩ := ha
  obtain ⟨t, ht⟩ := hb
  have hts : t.length ≤ s.length := by
    have h1 := congrArg List.length hs
    have h2 := congrArg List.length ht
    simp only [List.length_append] at h1 h2
    omega
  refine ⟨s.drop t.length, ?_⟩
  have hd : (s ++ a).drop t.length = s.drop t.length ++ a := by
    rw [List.drop_append_eq_append_drop, Nat.sub_eq_zero_of_le hts, List.drop_zero]
  have hc : c.drop t.length = b := by
    rw [← ht, List.drop_left]
  rw [← hd, hs, hc]

/-- One-step extension of the matched-prefix suffix relation. -/
theorem suffix_take_ext {p q : List Char} {k i : Nat} (hk : k < p.length)
    (hi : i < q.length) :
    List.IsSuffix (p.take (k+1)) (q.take (i+1))
      ↔ (List.IsSuffix (p.take k) (q.take i) ∧ p[k] = q[i]) := by
  rw [take_succ_of_lt p k hk, take_succ_of_lt q i hi, suffix_append_singleton]

/-- Reading a table entry away from a written position. -/
theorem lpsAt_set_ne (lps : List Nat) (i j v : Nat) (h : i ≠ j) :
    lpsAt (lps.set i v) j = lpsAt lps j := by
  unfold lpsAt
  rw [List.getD_eq_getElem?_getD, List.getD_eq_getElem?_getD, List.getElem?_set_ne h]

/-- Reading a table entry at a written in-range position. -/
theorem lpsAt_set_self (lps : List Nat) (i v : Nat) (h : i < lps.length) :
    lpsAt (lps.set i v) i = v := by
  unfold lpsAt
  rw [List.getD_eq_getElem?_getD, List.getElem?_set_self h]
  rfl

/-- The table loop only overwrites entries, so it preserves the length. -/
theorem kmpTableLoop_length (p : List Char) (m : Nat) :
    ∀ (fuel len i : Nat) (lps : List Nat),
      (kmpTableLoop p m fuel len i lps).length = lps.length
  | 0, _, _, _ => rfl
  | fuel+1, len, i, lps => by
    rw [kmpTableLoop]
    split
    · split
      · rw [kmpTableLoop_length p m fuel]
        exact List.length_set ..
      · split
        · exact kmpTableLoop_length p m fuel ..
        · rw [kmpTableLoop_length p m fuel]
          exact List.length_set ..
    · rfl

/-- Invariant proof of the C++ table loop.  State `(len, i)` before each
iteration satisfies: `p.take len` is a suffix of `p.take i` and is the longest
candidate left (every border of `p.take (i+1)` has length at most `len + 1`),
and entries `lps[0..i-1]` are correct.  The potential `2*(m-i) + len + 1`
bounds the remaining iterations, so fuel `2*m + 1` is never exhausted. -/
theorem kmpTableLoop_spec (p : List Char) (m : Nat) (hm : m = p.length) :
    ∀ (fuel len i : Nat) (lps : List Nat),
      2*(m - i) + len + 1 ≤ fuel →
      1 ≤ i → i ≤ m → len < i → lps.length = m →
      List.IsSuffix (p.take len) (p.take i) →
      (i < m → ∀ b, b ≤ i → List.IsSuffix (p.take b) (p.take (i+1)) → b ≤ len + 1) →
      (∀ j, 1 ≤ j → j ≤ i → TableEntryOK p lps j) →
      ∀ j, 1 ≤ j → j ≤ m → TableEntryOK p (kmpTableLoop p m fuel len i lps) j
  | 0, len, i, lps => fun hfuel _ _ _ _ _ _ _ => absurd hfuel (by omega)
  | fuel+1, len, i, lps => by
    intro hfuel h1i hiim hleni hlpslen hsuffix hB3 hentries
    rw [kmpTableLoop]
    by_cases him : i < m
    · rw [if_pos him]
      have hilen : i < p.length := hm ▸ him
      have hlenlt : len < p.length := by omega
      by_cases hceq : charAt p i == charAt p len
      · rw [if_pos hceq]
        have hchar : p[i] = p[len] := by
          have h := hceq
          rw [charAt_eq p i hilen, charAt_eq p len hlenlt] at h
          exact eq_of_beq h
        have hnewsuffix : List.IsSuffix (p.take (len+1)) (p.take (i+1)) :=
          (suffix_take_ext hlenlt hilen).mpr ⟨hsuffix, hchar.symm⟩
        have hB3i := hB3 him
        have hentry_new : TableEntryOK p (lps.set i (len+1)) (i+1) := by
          refine ⟨?_, ?_, ?_⟩
          · rw [show i+1-1 = i from rfl, lpsAt_set_self lps i (len+1) (by omega)]
            omega
          · rw [show i+1-1 = i from rfl, lpsAt_set_self lps i (len+1) (by omega)]
            exact hnewsuffix
          · intro k hk hks
            rw [show i+1-1 = i from rfl, lpsAt_set_self lps i (len+1) (by omega)]
            exact hB3i k (by omega) hks
        have hentries' : ∀ j, 1 ≤ j → j ≤ i+1 → TableEntryOK p (lps.set i (len+1)) j := by
          intro j hj1 hj2
          rcases Nat.lt_or_ge j (i+1) with hj | hj
          · have hold := hentries j hj1 (by omega)
            unfold TableEntryOK at hold ⊢
            rw [lpsAt_set_ne lps i (j-1) _ (by omega)]
            exact hold
          · have hje : j = i+1 := by omega
            rw [hje]
            exact hentry_new
        have hB3' : i+1 < m → ∀ b, b ≤ i+1 →
            List.IsSuffix (p.take b) (p.take (i+1+1)) → b ≤ (len+1) + 1 := by
          intro him1 b hb hbs
          cases b with
          | zero => omega
          | succ b =>
            have hb1 : b < p.length := by omega
            have hi1 : i+1 < p.length := hm ▸ him1
            obtain ⟨hs, _⟩ := (suffix_take_ext hb1 hi1).mp hbs
            have hle := hentry_new.2.2 b (by omega) hs
            rw [show i+1-1 = i from rfl, lpsAt_set_self lps i (len+1) (by omega)] at hle
            omega
        exact kmpTableLoop_spec p m hm fuel (len+1) (i+1) (lps.set i (len+1))
          (by omega) (by omega) (by omega) (by omega)
          (by rw [List.length_set]; exact hlpslen)
          hnewsuffix hB3' hentries'
      · rw [if_neg hceq]
        have hchar_ne : p[i] ≠ p[len] := by
          intro he
          exact hceq (by rw [charAt_eq p i hilen, charAt_eq p len hlenlt, he]; exact beq_self_eq_true _)
        by_cases hl0 : len ≠ 0
        · rw [if_pos hl0]
          obtain ⟨hT1, hT2, hT3⟩ := hentries len (by omega) (by omega)
          refine kmpTableLoop_spec p m hm fuel (lpsAt lps (len-1)) i lps
            (by omega) h1i hiim (by omega) hlpslen (hT2.trans hsuffix) ?_ hentries
          intro him' b hb hbs
          have hble := hB3 him' b hb hbs
          by_cases hble' : b ≤ lpsAt lps (len-1) + 1
          · exact hble'
          · exfalso
            cases b with
            | zero => omega
            | succ b =>
              have hbp : b < p.length := by omega
              obtain ⟨hs, hc⟩ := (suffix_take_ext hbp hilen).mp hbs
              by_cases hbl : b = len
              · subst hbl
                exact hchar_ne hc.symm
              · have hblen : b < len := by omega
                have hsb : List.IsSuffix (p.take b) (p.take len) :=
                  suffix_of_suffix_le hs hsuffix
                    (by
                      rw [List.length_take, List.length_take]
                      omega)
                have := hT3 b hblen hsb
                omega
        · rw [if_neg hl0]
          push_neg at hl0
          subst hl0
          have hentry_new : TableEntryOK p (lps.set i 0) (i+1) := by
            refine ⟨?_, ?_, ?_⟩
            · rw [show i+1-1 = i from rfl, lpsAt_set_self lps i 0 (by omega)]
              omega
            · rw [show i+1-1 = i from rfl, lpsAt_set_self lps i 0 (by omega)]
              rw [List.take_zero]
              exact List.nil_suffix
            · intro k hk hks
              rw [show i+1-1 = i from rfl, lpsAt_set_self lps i 0 (by omega)]
              have hk1 := hB3 him k (by omega) hks
              rcases Nat.lt_or_ge k 1 with h | h
              · omega
              · exfalso
                have hkeq : k = 1 := by omega
                subst hkeq
                obtain ⟨_, hc⟩ := (suffix_take_ext (by omega : 0 < p.length) hilen).mp hks
                exact hchar_ne hc.symm
          have hentries' : ∀ j, 1 ≤ j → j ≤ i+1 → TableEntryOK p (lps.set i 0) j := by
            intro j hj1 hj2
            rcases Nat.lt_or_ge j (i+1) with hj | hj
            · have hold := hentries j hj1 (by omega)
              unfold TableEntryOK at hold ⊢
              rw [lpsAt_set_ne lps i (j-1) _ (by omega)]
              exact hold
            · have hje : j = i+1 := by omega
              rw [hje]
              exact hentry_new
          have hB3' : i+1 < m → ∀ b, b ≤ i+1 →
              List.IsSuffix (p.take b) (p.take (i+1+1)) → b ≤ 0 + 1 := by
            intro him1 b hb hbs
            cases b with
            | zero => omega
            | succ b =>
              have hb1 : b < p.length := by omega
              have hi1 : i+1 < p.length := hm ▸ him1
              obtain ⟨hs, _⟩ := (suffix_take_ext hb1 hi1).mp hbs
              have hle := hentry_new.2.2 b (by omega) hs
              rw [show i+1-1 = i from rfl, lpsAt_set_self lps i 0 (by omega)] at hle
              omega
          exact kmpTableLoop_spec p m hm fuel 0 (i+1) (lps.set i 0)
            (by omega) (by omega) (by omega) (by omega)
            (by rw [List.length_set]; exact hlpslen)
            (by rw [List.take_zero]; exact List.nil_suffix) hB3' hentries'
    · rw [if_neg him]
      exact fun j hj1 hj2 => hentries j hj1 (by omega)

/-- The table computed by `computeKMPTable` is the correct failure table:
entry `j-1` holds the longest proper border length of `p.take j`. -/
theorem computeKMPTable_spec (p : List Char) (hp : p ≠ []) :
    (computeKMPTable p).length = p.length
    ∧ ∀ j, 1 ≤ j → j ≤ p.length → TableEntryOK p (computeKMPTable p) j := by
  have hm1 : 1 ≤ p.length := by
    cases p with
    | nil => exact absurd rfl hp
    | cons a l => simp
  constructor
  · unfold computeKMPTable
    rw [kmpTableLoop_length]
    exact List.length_replicate ..
  · refine kmpTableLoop_spec p p.length rfl (2*p.length+1) 0 1
      (List.replicate p.length 0) (by omega) (by omega) hm1 (by omega)
      (List.length_replicate ..) ?_ ?_ ?_
    · rw [List.take_zero]
      exact List.nil_suffix
    · intro _ b hb _
      omega
    · intro j hj1 hj2
      have hje : j = 1 := by omega
      subst hje
      have hlps0 : lpsAt (List.replicate p.length 0) (1-1) = 0 := by
        unfold lpsAt
        rw [List.getD_eq_getElem?_getD, List.getElem?_replicate,
          if_pos (by omega : 0 < p.length)]
        rfl
      refine ⟨?_, ?_, ?_⟩
      · rw [hlps0]
        omega
      · rw [hlps0, List.take_zero]
        exact List.nil_suffix
      · intro k hk _
        rw [hlps0]
        omega

/-- A contiguous-substring containment is exactly an occurrence at some
start position. -/
theorem substring_iff_occAt (t p : List Char) : List.IsInfix p t ↔ ∃ s, occAt t p s := by
  constructor
  · rintro ⟨u, v, huv⟩
    refine ⟨u.length, ?_⟩
    unfold occAt
    rw [← huv, List.append_assoc, List.drop_left]
    exact List.take_left ..
  · rintro ⟨s, hocc⟩
    unfold occAt at hocc
    refine ⟨t.take s, (t.drop s).drop p.length, ?_⟩
    have h3 : p ++ (t.drop s).drop p.length
        = (t.drop s).take p.length ++ (t.drop s).drop p.length := by
      rw [hocc]
    rw [List.append_assoc, h3, List.take_append_drop, List.take_append_drop]

/-- An occurrence of a non-empty pattern lies fully inside the text. -/
theorem occAt_bound (t p : List Char) (s : Nat) (hp : p ≠ []) (hocc : occAt t p s) :
    s + p.length ≤ t.length := by
  unfold occAt at hocc
  have hl := congrArg List.length hocc
  simp only [List.length_take, List.length_drop] at hl
  have hplen : 0 < p.length := List.length_pos.mpr hp
  omega

/-- Character extraction from an occurrence. -/
theorem occAt_getElem (t p : List Char) (s d : Nat) (hocc : occAt t p s)
    (hd : d < p.length) : p[d]? = t[s+d]? := by
  unfold occAt at hocc
  conv_lhs => rw [← hocc]
  rw [List.getElem?_take_of_lt hd, List.getElem?_drop]

/-- Invariant proof of the C++ search loop.  State `(i, j)` before each
iteration satisfies: `p.take j` is a suffix of `t.take i` and no occurrence
of `p` starts before `i - j`.  The potential `2*(n-i) + j + 1` bounds the
remaining iterations, so fuel `2*n + 1` is never exhausted. -/
theorem kmpSearchLoop_spec (t p : List Char) (n m : Nat) (lps : List Nat)
    (hn : n = t.length) (hm : m = p.length) (hm1 : 1 ≤ m)
    (hspec : ∀ j, 1 ≤ j → j ≤ m → TableEntryOK p lps j) :
    ∀ (fuel i j : Nat),
      2*(n - i) + j + 1 ≤ fuel →
      i ≤ n → j < m → j ≤ i →
      List.IsSuffix (p.take j) (t.take i) →
      (∀ s, s < i - j → ¬ occAt t p s) →
      ((kmpSearchLoop t p n m lps fuel i j = true) ↔ ∃ s, occAt t p s)
  | 0, i, j => fun hfuel _ _ _ _ _ => absurd hfuel (by omega)
  | fuel+1, i, j => by
    intro hfuel hin hjm hji hmatch hnostart
    rw [kmpSearchLoop]
    by_cases hi : i < n
    · rw [if_pos hi]
      have hit : i < t.length := hn ▸ hi
      have hjp : j < p.length := hm ▸ hjm
      by_cases hc : charAt t i == charAt p j
      · rw [if_pos hc]
        have hchar : t[i] = p[j] := by
          rw [charAt_eq t i hit, charAt_eq p j hjp] at hc
          exact eq_of_beq hc
        have hmatch' : List.IsSuffix (p.take (j+1)) (t.take (i+1)) :=
          (suffix_take_ext hjp hit).mpr ⟨hmatch, hchar.symm⟩
        by_cases hjm1 : j+1 = m
        · rw [if_pos hjm1]
          have hfull : List.IsSuffix p (t.take (i+1)) := by
            rw [hjm1, hm] at hmatch'
            rwa [List.take_length] at hmatch'
          obtain ⟨u, hu⟩ := hfull
          constructor
          · intro _
            refine ⟨u.length, ?_⟩
            unfold occAt
            have ht : t = u ++ (p ++ t.drop (i+1)) := by
              conv_lhs => rw [← List.take_append_drop (i+1) t, ← hu]
              rw [List.append_assoc]
            have h2 : t.drop u.length = p ++ t.drop (i+1) := by
              conv_lhs => rw [ht]
              exact List.drop_left u _
            rw [h2]
            exact List.take_left ..
          · intro _
            rfl
        · rw [if_neg hjm1]
          exact kmpSearchLoop_spec t p n m lps hn hm hm1 hspec fuel (i+1) (j+1)
            (by omega) (by omega) (by omega) (by omega) hmatch'
            (fun s hs => hnostart s (by omega))
      · rw [if_neg hc]
        have hchar_ne : t[i] ≠ p[j] := fun he =>
          hc (by rw [charAt_eq t i hit, charAt_eq p j hjp, he]; exact beq_self_eq_true _)
        by_cases hj0 : j ≠ 0
        · rw [if_pos hj0]
          obtain ⟨hT1, hT2, hT3⟩ := hspec j (by omega) (by omega)
          refine kmpSearchLoop_spec t p n m lps hn hm hm1 hspec fuel i (lpsAt lps (j-1))
            (by omega) hin (by omega) (by omega) (hT2.trans hmatch) ?_
          intro s hs
          by_cases hs_old : s < i - j
          · exact hnostart s hs_old
          · intro hocc
            have hsi : s ≤ i := by omega
            have hkle : i - s ≤ j := by omega
            have hkgt : lpsAt lps (j-1) < i - s := by omega
            have htk : (t.drop s).take (i - s) = p.take (i - s) := by
              have h1 : ((t.drop s).take p.length).take (i-s) = p.take (i-s) := by
                rw [hocc]
              rw [List.take_take] at h1
              rw [← h1]
              congr 1
              omega
            have hsuffk : List.IsSuffix (p.take (i-s)) (t.take i) := by
              refine ⟨t.take s, ?_⟩
              have hta : t.take i = t.take s ++ (t.drop s).take (i-s) := by
                have := List.take_add (l := t) (m := s) (n := i - s)
                rw [show s + (i - s) = i by omega] at this
                exact this
              rw [hta, htk]
            by_cases hkj : i - s = j
            · have hchars : p[j]? = t[i]? := by
                have := occAt_getElem t p s j hocc hjp
                rw [show s + j = i by omega] at this
                exact this
              rw [List.getElem?_eq_getElem hit, List.getElem?_eq_getElem hjp] at hchars
              exact hchar_ne (Option.some.inj hchars).symm
            · have hklt : i - s < j := by omega
              have hsubb : List.IsSuffix (p.take (i-s)) (p.take j) :=
                suffix_of_suffix_le hsuffk hmatch
                  (by rw [List.length_take, List.length_take]; omega)
              have := hT3 (i-s) hklt hsubb
              omega
        · rw [if_neg hj0]
          push_neg at hj0
          subst hj0
          refine kmpSearchLoop_spec t p n m lps hn hm hm1 hspec fuel (i+1) 0
            (by omega) (by omega) (by omega) (by omega)
            (by rw [List.take_zero]; exact List.nil_suffix) ?_
          intro s hs
          by_cases hs_old : s < i - 0
          · exact hnostart s hs_old
          · have hsi : s = i := by omega
            subst hsi
            intro hocc
            have hchars : p[0]? = t[s]? := by
              have := occAt_getElem t p s 0 hocc (by omega)
              rwa [Nat.add_zero] at this
            rw [List.getElem?_eq_getElem hit, List.getElem?_eq_getElem (by omega : 0 < p.length)]
              at hchars
            exact hchar_ne (Option.some.inj hchars).symm
    · rw [if_neg hi]
      constructor
      · intro h
        exact absurd h (by simp)
      · rintro ⟨s, hocc⟩
        exfalso
        have hp : p ≠ [] := by
          intro he
          rw [he] at hm
          simp at hm
          omega
        have hsb := occAt_bound t p s hp hocc
        exact hnostart s (by omega) hocc

/-- C++ `KMPSearch` decides contiguous-substring containment for non-empty
patterns. -/
theorem KMPSearch_iff (t p : List Char) (hp : p ≠ []) :
    KMPSearch t p = true ↔ List.IsInfix p t := by
  have hm1 : 1 ≤ p.length := List.length_pos.mpr hp
  unfold KMPSearch
  rw [if_neg (by simpa using hp)]
  rw [kmpSearchLoop_spec t p t.length p.length (computeKMPTable p) rfl rfl hm1
    (computeKMPTable_spec p hp).2 (2*t.length+1) 0 0
    (by omega) (by omega) (by omega) (by omega)
    (by rw [List.take_zero]; exact List.nil_suffix)
    (fun s hs => absurd hs (by omega))]
  exact (substring_iff_occAt t p).symm

/-- C3: for every text and every non-empty pattern, `KMPSearch` returns
`true` iff the pattern occurs as a contiguous substring of the text; and for
every text, `KMPSearch text []` with the empty pattern returns `false`. -/
theorem C3_KMPSearch_correct (text pattern : List Char) :
    (pattern ≠ [] → (KMPSearch text pattern = true ↔ List.IsInfix pattern text))
    ∧ KMPSearch text [] = false := by
  constructor
  · exact KMPSearch_iff text pattern
  · rfl

/-- C3 (witness): `KMPSearch` applied to a concrete text and pattern. -/
theorem C3_witness :
    ("bc".data ≠ []
      ∧ (KMPSearch "abcd".data "bc".data = true ↔ List.IsInfix "bc".data "abcd".data))
    ∧ (KMPSearch "abcd".data "bc".data = true ∧ ¬ KMPSearch "abcd".data "ca".data = true) :=
  ⟨⟨by decide, (C3_KMPSearch_correct "abcd".data "bc".data).1 (by decide)⟩,
    by decide⟩

/-! ## Note search (tag search and full-text search) -/

/-- C6: for every list of notes and every tag string, tag search selects
exactly those notes whose tag list contains a tag exactly (case-sensitively)
equal to the query, in input order; and the "no notes found" report (the
`found` flag being false) happens exactly when the selection is empty — a
normal result, not an error (the function is total). -/
theorem C6_searchNotesByTag_exact (notes : List Note) (tag : String) :
    (searchNotesByTag notes tag).1 = notes.filter (fun nt => decide (tag ∈ nt.tags))
    ∧ ((searchNotesByTag notes tag).2 = false ↔ (searchNotesByTag notes tag).1 = []) := by
  induction notes with
  | nil => exact ⟨rfl, by simp [searchNotesByTag]⟩
  | cons nt rest ih =>
    simp only [searchNotesByTag]
    by_cases h : tag ∈ nt.tags
    · rw [if_pos h]
      refine ⟨?_, by simp⟩
      rw [List.filter_cons, if_pos (decide_eq_true h), ih.1]
    · rw [if_neg h]
      refine ⟨?_, ih.2⟩
      rw [List.filter_cons, if_neg (by simpa using h), ih.1]

/-- C5 (counterexample): for the note with title `"x"`, description `"y"`
and single tag `"o"`, the search text `"o "` (with a trailing space) IS
selected by the code — the code haystack `"x y o "` has a trailing space —
but the folded pattern does NOT occur in the spec's haystack `"x y o"`
built with separating spaces only.  So "selects exactly those notes for
which the folded search text occurs in the haystack built by concatenating
title, description and tags separated by spaces" is false as stated. -/
theorem C5_counterexample :
    (searchNotesFullText [⟨"x", "y", ["o"], "", .generic⟩] "o ").1
        = [⟨"x", "y", ["o"], "", .generic⟩]
    ∧ ¬ List.IsInfix (toLowerCase "o ".data)
        (toLowerCase (specHaystack ⟨"x", "y", ["o"], "", .generic⟩)) := by
  constructor
  · decide
  · decide

/-- C5 (amended): full-text search selects exactly those notes for which the
case-folded search text is non-empty and occurs as a contiguous substring of
the case-folded CODE haystack `noteFullText` — title, description and each
tag every one followed by a space (so with a trailing space after the last
component); an empty search text selects nothing. -/
theorem C5_amended_searchNotesFullText (notes : List Note) (searchText : String) :
    (searchNotesFullText notes searchText).1
      = notes.filter (fun nt =>
          decide (toLowerCase searchText.data ≠ []
            ∧ List.IsInfix (toLowerCase searchText.data) (toLowerCase (noteFullText nt))))
    ∧ ((searchNotesFullText notes searchText).2 = false
        ↔ (searchNotesFullText notes searchText).1 = []) := by
  induction notes with
  | nil => exact ⟨rfl, by simp [searchNotesFullText]⟩
  | cons nt rest ih =>
    have hkey : KMPSearch (toLowerCase (noteFullText nt)) (toLowerCase searchText.data) = true
        ↔ (toLowerCase searchText.data ≠ []
            ∧ List.IsInfix (toLowerCase searchText.data) (toLowerCase (noteFullText nt))) := by
      by_cases hpat : toLowerCase searchText.data = []
      · rw [hpat]
        constructor
        · intro h
          rw [show KMPSearch (toLowerCase (noteFullText nt)) [] = false from rfl] at h
          exact absurd h (by simp)
        · rintro ⟨h, _⟩
          exact absurd rfl h
      · rw [KMPSearch_iff _ _ hpat]
        exact ⟨fun h => ⟨hpat, h⟩, fun h => h.2⟩
    simp only [searchNotesFullText]
    by_cases h : KMPSearch (toLowerCase (noteFullText nt)) (toLowerCase searchText.data)
    · rw [if_pos h]
      refine ⟨?_, by simp⟩
      rw [List.filter_cons, if_pos (decide_eq_true (hkey.mp h)), ih.1]
    · have hnot : ¬ (toLowerCase searchText.data ≠ []
          ∧ List.IsInfix (toLowerCase searchText.data) (toLowerCase (noteFullText nt))) :=
        fun hc => h (hkey.mpr hc)
      rw [if_neg h]
      refine ⟨?_, ih.2⟩
      rw [List.filter_cons, if_neg (by simpa using hnot), ih.1]

/-! ## getProgress dispatch (C7) -/

/-- C7: for every `NonQuantifiableGoal` — whatever progress value is stored
in it — `getProgress()` returns the sentinel `-1`; and for every base `Goal`
and every `QuantifiableGoal`, `getProgress()` returns the stored progress
value. -/
theorem C7_getProgress_dispatch (g : Goal) :
    (g.kind = .nonQuantifiable → g.getProgress = -1)
    ∧ (g.kind ≠ .nonQuantifiable → g.getProgress = g.progress) := by
  unfold Goal.getProgress
  rcases hk : g.kind
  case generic => exact ⟨fun h => absurd h (by simp), fun _ => rfl⟩
  case quantifiable => exact ⟨fun h => absurd h (by simp), fun _ => rfl⟩
  case nonQuantifiable => exact ⟨fun _ => rfl, fun h => absurd rfl h⟩

/-- C7 (witness): the dispatch theorem applied to the two concrete goals. -/
theorem C7_witness :
    (cNonQuant.kind = .nonQuantifiable ∧ cNonQuant.getProgress = -1)
    ∧ (cQuant.kind ≠ .nonQuantifiable ∧ cQuant.getProgress = cQuant.progress) :=
  ⟨⟨rfl, (C7_getProgress_dispatch cNonQuant).1 rfl⟩,
    ⟨by decide, (C7_getProgress_dispatch cQuant).2 (by decide)⟩⟩

/-! ## Tag parsing of addNote and of the ingestion adapter (C8) -/

/-- C8 (counterexample): `addNote` invoked with an EMPTY tag input line
creates a note whose tag list is empty — no `"generic"` placeholder is
substituted, because the `getline` loop never runs; and the ingestion
adapter also creates notes with an EMPTY tag list: a line whose tags field
is missing or empty (e.g. `"Note,T,D"`) leaves `tags = ""`, and
`split("", ',')` produces no token while no substitution is performed.  So
"every Note created by the system has a non-empty tag list, because every
empty tag is substituted with the placeholder generic" is false as
stated. -/
theorem C8_counterexample :
    addNote 1 "T" "D" "" "" = some ⟨"T", "D", [], "", .publicNote⟩
    ∧ loadNoteTags "" = [] := by
  constructor
  · decide
  · decide

/-- The `getline` loop never returns an empty token list. -/
theorem splitGo_ne_nil (delim : Char) : ∀ (s acc : List Char), splitGo delim acc s ≠ []
  | [], acc => by simp [splitGo]
  | c :: cs, acc => by
    rw [splitGo]
    split
    · simp
    · exact splitGo_ne_nil delim cs (acc ++ [c])

/-- On a delimiter-free stream the `getline` loop returns the one token
`acc ++ s`. -/
theorem splitGo_no_delim (delim : Char) : ∀ (s acc : List Char),
    (∀ c ∈ s, c ≠ delim) → splitGo delim acc s = [acc ++ s]
  | [], acc, _ => by simp [splitGo]
  | c :: cs, acc, h => by
    rw [splitGo, if_neg (h c (by simp)),
      splitGo_no_delim delim cs (acc ++ [c]) (fun x hx => h x (by simp [hx]))]
    simp

/-- C8 (amended): a note created by the interactive `addNote` with a
NON-EMPTY tag input line has a non-empty tag list, and every one of its tags
is non-empty (each empty token is substituted with `"generic"`).  The
ingestion adapter performs NO substitution, but its tags field is read by
`getline(ss, tags, ',')` and so never contains a comma: for every comma-free
tags field, ingestion yields the empty tag list when the field is empty and
the single non-empty tag `[tagsField]` otherwise — no note created by
ingestion carries a literally empty tag, yet its tag list CAN be empty (see
the counterexample). -/
theorem C8_amended_addNote_tags (tagsInput tagsField : String)
    (h : tagsInput ≠ "") (hf : ∀ c ∈ tagsField.data, c ≠ ',') :
    (addNoteTags tagsInput ≠ [] ∧ ∀ tag ∈ addNoteTags tagsInput, tag ≠ "")
    ∧ (tagsField = "" → loadNoteTags tagsField = [])
    ∧ (tagsField ≠ "" → loadNoteTags tagsField = [tagsField]) := by
  refine ⟨⟨?_, ?_⟩, ?_, ?_⟩
  · have hd : tagsInput.data ≠ [] := by
      intro he
      apply h
      cases tagsInput with
      | mk d => rw [show d = [] from he]
    unfold addNoteTags split
    rw [if_neg (by simpa [List.isEmpty_iff] using hd)]
    intro hc
    exact splitGo_ne_nil ',' tagsInput.data [] (List.map_eq_nil_iff.mp hc)
  · intro tag htag
    obtain ⟨tok, _, htok⟩ := List.mem_map.mp htag
    by_cases he : tok.isEmpty
    · rw [← htok, if_pos he]
      decide
    · rw [← htok, if_neg he]
      intro hc
      rw [List.isEmpty_iff] at he
      exact he (by
        have : (String.mk tok).data = ("" : String).data := by rw [hc]
        simpa using this)
  · intro he
    cases tagsField with
    | mk d =>
      rw [show d = [] from by simpa [String.ext_iff] using he]
      decide
  · intro hne
    have hd : tagsField.data ≠ [] := by
      intro he
      apply hne
      cases tagsField with
      | mk d => rw [show d = [] from he]
    unfold loadNoteTags split
    rw [if_neg (by simpa [List.isEmpty_iff] using hd),
      splitGo_no_delim ',' tagsField.data [] hf]
    simp

/-- C8 (witness): the amended theorem applied to the concrete tag input
`"work,"` (note the trailing comma: the result is `["work"]`, not
`["work", "generic"]`, since the final `getline` fails at end-of-stream) and
to the concrete comma-free ingestion tags field `"urgent"`. -/
theorem C8_witness :
    (("work," : String) ≠ "" ∧ ∀ c ∈ ("urgent" : String).data, c ≠ ',')
    ∧ ((addNoteTags "work," ≠ [] ∧ ∀ tag ∈ addNoteTags "work,", tag ≠ "")
       ∧ (("urgent" : String) = "" → loadNoteTags "urgent" = [])
       ∧ (("urgent" : String) ≠ "" → loadNoteTags "urgent" = ["urgent"])) :=
  ⟨⟨by decide, by decide⟩,
    C8_amended_addNote_tags "work," "urgent" (by decide) (by decide)⟩

/-! ## Note::getDetails (C10) -/

/-- Appending `tag ++ sep` for every tag equals the separator-joined tags
plus one trailing separator, for a non-empty tag list. -/
theorem join_map_sep (sep : List Char) : ∀ (ts : List String), ts ≠ [] →
    (ts.map (fun tag => tag.data ++ sep)).flatten
      = joinSep sep (ts.map String.data) ++ sep
  | [], h => absurd rfl h
  | [t], _ => by simp [joinSep]
  | t :: t2 :: ts, _ => by
    rw [List.map_cons, List.flatten_cons, join_map_sep sep (t2 :: ts) (by simp)]
    simp [joinSep, List.append_assoc]

/-- Dropping the last two characters of a list ending in a two-character
suffix removes exactly that suffix. -/
theorem dropLast_two (X : List Char) (a b : Char) :
    (X ++ [a, b]).dropLast.dropLast = X := by
  rw [show X ++ [a, b] = (X ++ [a]) ++ [b] by simp,
    List.dropLast_concat, List.dropLast_concat]

/-- C10: for every Note with a non-empty tag list, `getDetails()` returns
`"Title: " + title + "\nDescription: " + description + "\nTags: "` followed
by the tags joined by `", "` with no trailing separator; for a Note with an
empty tag list the two `pop_back()` calls instead remove the last two
characters of the fixed header, leaving a string that ends in `"Tags"`. -/
theorem C10_getDetails (nt : Note) :
    (nt.tags ≠ [] → Note.getDetails nt
        = "Title: ".data ++ nt.title.data ++ "\nDescription: ".data
            ++ nt.description.data ++ "\nTags: ".data
            ++ joinSep ", ".data (nt.tags.map String.data))
    ∧ (nt.tags = [] → Note.getDetails nt
        = "Title: ".data ++ nt.title.data ++ "\nDescription: ".data
            ++ nt.description.data ++ "\nTags".data) := by
  constructor
  · intro h
    unfold Note.getDetails
    rw [join_map_sep ", ".data nt.tags h]
    rw [show (", " : String).data = [',', ' '] from rfl,
      show ∀ (A B : List Char), A ++ (B ++ [',', ' ']) = (A ++ B) ++ [',', ' ']
        from fun A B => by simp,
      dropLast_two]
  · intro h
    unfold Note.getDetails
    rw [h]
    simp only [List.map_nil, List.flatten_nil]
    rw [List.append_nil]
    rw [show (['\n', 'T', 'a', 'g', 's', ':', ' '] : List Char)
        = ['\n', 'T', 'a', 'g', 's'] ++ [':', ' '] from rfl,
      show ∀ (A B : List Char), A ++ (B ++ [':', ' ']) = (A ++ B) ++ [':', ' ']
        from fun A B => by simp,
      dropLast_two]

/-- C10 (witness): `getDetails` on a concrete note with tags
`["work", "urgent"]` and on a concrete note with no tags. -/
theorem C10_witness :
    ((["work", "urgent"] : List String) ≠ []
      ∧ Note.getDetails ⟨"N", "D", ["work", "urgent"], "", .generic⟩
          = "Title: ".data ++ "N".data ++ "\nDescription: ".data ++ "D".data
              ++ "\nTags: ".data ++ joinSep ", ".data (["work", "urgent"].map String.data))
    ∧ (([] : List String) = []
      ∧ Note.getDetails ⟨"N", "D", [], "", .generic⟩
          = "Title: ".data ++ "N".data ++ "\nDescription: ".data ++ "D".data
              ++ "\nTags".data) :=
  ⟨⟨by decide, (C10_getDetails ⟨"N", "D", ["work", "urgent"], "", .generic⟩).1 (by decide)⟩,
    ⟨rfl, (C10_getDetails ⟨"N", "D", [], "", .generic⟩).2 rfl⟩⟩

end GTN
